import Mathlib

/-!
Verification of the multi-tree build orchestrator against its design
specification.  The Python sources (core/, ninja/, inner_build/) are shallowly
embedded: each Python class becomes a structure, each method a Lean function,
exceptions become `Except`, and Python dicts become association lists processed
in insertion order.
-/

deriving instance DecidableEq for Except

namespace Orch

/-! ## Character-list string primitives.  These model the Python `str`
operations the sources use (`startswith`, slicing, `split("/")`); they are
stated over `String.data` so that concrete instances evaluate inside the
kernel. -/

/-- Model of Python `s.startswith(p)`. -/
def strStartsWith (s p : String) : Bool :=
  p.data.isPrefixOf s.data

/-- Model of Python `s.endswith(p)`. -/
def strEndsWith (s p : String) : Bool :=
  p.data.isSuffixOf s.data

/-- Model of Python slicing `s[n:]`. -/
def strDrop (s : String) (n : Nat) : String :=
  ⟨s.data.drop n⟩

/-- Splits a character list at a separator (`"a/b" ↦ [[a],[b]]`, keeping empty
segments, as Python `str.split` with an explicit separator does). -/
def splitChars (sep : Char) : List Char → List (List Char)
  | [] => [[]]
  | c :: cs =>
      let r := splitChars sep cs
      if c = sep then [] :: r
      else
        match r with
        | [] => [[c]]
        | h :: t => (c :: h) :: t

/-- Model of Python `s.split(sep)` for a single-character separator. -/
def pySplitOn (s : String) (sep : Char) : List String :=
  (splitChars sep s.data).map (fun l => ⟨l⟩)

/-! ## ninja/ninja_syntax.py -/

/-- Embeds class `Variable` of ninja/ninja_syntax.py: a ninja variable with a
name, a value and an indentation level.  Its `key()` is the triple of all three
fields, so structural equality coincides with Python `__eq__`. -/
structure NVariable where
  name : String
  value : String
  indent : Nat
deriving DecidableEq, Repr

/-- Embeds `Variable.stream` (ninja_syntax.py line 67): `indent*TAB ++ name = value`. -/
def NVariable.stream (v : NVariable) : String :=
  let tabs := String.join (List.replicate v.indent "  ")
  tabs ++ v.name ++ " = " ++ v.value

/-- Embeds `RULE_VARIABLES` of ninja/ninja_syntax.py (lines 79-82): the
engine-defined allow-list of variable names a ninja rule may carry. -/
def RULE_VARIABLES : List String :=
  ["command", "depfile", "deps", "description", "dyndep", "generator",
   "msvc_deps_prefix", "restat", "rspfile", "rspfile_content"]

/-- Stable ascending insertion used to model Python `sorted(xs, key=lambda x: x.name)`
for lists of ninja variables (used by `Rule.variables` and `BuildAction.variables`). -/
def insertByName (v : NVariable) : List NVariable → List NVariable
  | [] => [v]
  | w :: ws => if v.name ≤ w.name then v :: w :: ws else w :: insertByName v ws

/-- Model of Python `sorted(xs, key=lambda x: x.name)` (stable, ascending by name). -/
def sortVarsByName (l : List NVariable) : List NVariable :=
  l.foldr insertByName []

/-- Embeds class `Rule` of ninja/ninja_syntax.py: a named reusable command with
a private variable list `_variables` (in insertion order). -/
structure Rule where
  name : String
  vars : List NVariable
deriving DecidableEq, Repr

/-- Embeds the `Rule.variables` property (line 100): the variables sorted by name. -/
def Rule.variables (r : Rule) : List NVariable :=
  sortVarsByName r.vars

/-- Embeds `Rule.key` (line 104): `(self.name, tuple(self.variables))`, the
content key used for equality, hashing and deduplication. -/
def Rule.key (r : Rule) : String × List NVariable :=
  (r.name, r.variables)

/-- Embeds `Rule.add_variable` (lines 106-111): raises `RuleException` when the
name is outside `RULE_VARIABLES`, else appends `Variable(name, value, indent=1)`. -/
def Rule.add_variable (r : Rule) (name value : String) : Except String Rule :=
  if name ∈ RULE_VARIABLES then
    Except.ok { r with vars := r.vars ++ [⟨name, value, 1⟩] }
  else
    Except.error (name ++ " is not a recognized variable in a ninja rule")

/-- Embeds the `Rule.__init__` constructor (lines 91-95): starts with an empty
variable list and feeds every pair through `add_variable` (which can raise). -/
def Rule.init (name : String) (varList : List (String × String)) : Except String Rule :=
  varList.foldlM (fun r kv => r.add_variable kv.1 kv.2) { name := name, vars := [] }

/-- Embeds class `BuildAction` of ninja/ninja_syntax.py: the dependency edge
between inputs and outputs.  The `_as_list` conversions of `__init__` are
reflected by the typed `List String` fields. -/
structure BuildAction where
  rule : String
  output : List String
  inputs : List String
  implicits : List String
  order_only : List String
  vars : List NVariable
deriving DecidableEq, Repr

/-- Embeds the `BuildAction.variables` property (line 163): sorted by name. -/
def BuildAction.variables (b : BuildAction) : List NVariable :=
  sortVarsByName b.vars

/-- Embeds `BuildAction.key` (lines 155-158): the full content tuple. -/
def BuildAction.key (b : BuildAction) :
    List String × String × List String × List String × List String × List NVariable :=
  (b.output, b.rule, b.inputs, b.implicits, b.order_only, b.variables)

/-- Embeds `BuildAction.add_variable` (lines 165-167): unconditionally appends a
variable scoped to this build action (no allow-list check, unlike `Rule`). -/
def BuildAction.add_variable (b : BuildAction) (name value : String) : BuildAction :=
  { b with vars := b.vars ++ [⟨name, value, 1⟩] }

/-- Embeds the `BuildAction.__init__` constructor (lines 139-153).  With typed
list arguments the `_as_list` casts cannot raise, so construction always
succeeds; the `Except` return mirrors the possibility of a Python exception
escaping the constructor. -/
def BuildAction.init (rule : String) (output inputs implicits order_only : List String)
    (varList : List (String × String)) : Except String BuildAction :=
  Except.ok (varList.foldl (fun b kv => b.add_variable kv.1 kv.2)
    { rule := rule, output := output, inputs := inputs, implicits := implicits,
      order_only := order_only, vars := [] })

/-- Embeds `BuildAction._validate` (lines 187-193): at serialization time an
empty output list or an empty (falsy) rule name raises `BuildActionException`. -/
def BuildAction.validate (b : BuildAction) : Except String Unit :=
  if b.output.isEmpty then
    Except.error "Output is required in a ninja build statement"
  else if b.rule = "" then
    Except.error "Rule is required in a ninja build statement"
  else
    Except.ok ()

/-- Embeds `BuildAction.stream` (lines 169-185): validates, then yields the
`build <outputs>: <rule> <inputs> | <implicits> || <order_only>` statement
followed by the indented variable lines. -/
def BuildAction.stream (b : BuildAction) : Except String (List String) :=
  match BuildAction.validate b with
  | Except.error e => Except.error e
  | Except.ok _ =>
  let output := String.intercalate " " b.output
  let s0 := "build " ++ output ++ ": " ++ b.rule
  let s1 := if b.inputs.length > 0 then s0 ++ " " ++ String.intercalate " " b.inputs else s0
  let s2 := if b.implicits.length > 0 then s1 ++ " | " ++ String.intercalate " " b.implicits else s1
  let s3 := if b.order_only.length > 0 then s2 ++ " || " ++ String.intercalate " " b.order_only else s2
  Except.ok (s3 :: (b.variables).map NVariable.stream)

/-- Streaming succeeds exactly when validation does. -/
theorem BuildAction.stream_ok_iff (b : BuildAction) :
    (∃ ls, BuildAction.stream b = Except.ok ls) ↔ BuildAction.validate b = Except.ok () := by
  unfold BuildAction.stream
  cases h : BuildAction.validate b with
  | error e => simp
  | ok u => cases u; simp

/-! ## ninja/ninja_writer.py -/

/-- Embeds the heterogeneous node list of `Writer.nodes`; one constructor per
`Node` subclass that the writer can hold (ninja_syntax.py). -/
inductive NinjaNode where
  | var (v : NVariable)
  | rule (r : Rule)
  | buildAction (b : BuildAction)
  | line (s : String)
deriving DecidableEq, Repr

/-- Embeds class `Writer` of ninja/ninja_writer.py.  `nodes` is the append-only
node sequence; `ruleCache` and `actionCache` model the per-method
`functools.lru_cache` tables of `add_rule` and `add_build_action`: the list of
arguments already seen (lookup is by `__hash__`/`__eq__`, i.e. by content key). -/
structure Writer where
  nodes : List NinjaNode
  ruleCache : List Rule
  actionCache : List BuildAction
deriving Repr

/-- Embeds `Writer.add_variable` (lines 32-33): appends unconditionally. -/
def Writer.add_variable (w : Writer) (v : NVariable) : Writer :=
  { w with nodes := w.nodes ++ [NinjaNode.var v] }

/-- Embeds `Writer.add_rule` (lines 35-37) together with its
`@functools.lru_cache` decorator: a call whose argument is `__eq__`-equal
(key-equal) to a previously seen argument is a cache hit and the body does not
run; otherwise the rule is appended to `nodes` and remembered. -/
def Writer.add_rule (w : Writer) (r : Rule) : Writer :=
  if w.ruleCache.any (fun r' => r'.key = r.key) then w
  else { w with nodes := w.nodes ++ [NinjaNode.rule r], ruleCache := w.ruleCache ++ [r] }

/-- Embeds `Writer.add_build_action` (lines 39-41) with its `lru_cache`,
analogously to `add_rule`. -/
def Writer.add_build_action (w : Writer) (b : BuildAction) : Writer :=
  if w.actionCache.any (fun b' => b'.key = b.key) then w
  else { w with nodes := w.nodes ++ [NinjaNode.buildAction b],
                actionCache := w.actionCache ++ [b] }

/-- Embeds `Writer.add_comment` (lines 46-47). -/
def Writer.add_comment (w : Writer) (comment : String) : Writer :=
  { w with nodes := w.nodes ++ [NinjaNode.line ("# " ++ comment)] }

/-- Embeds `Writer.add_phony` (lines 58-59): a build action with the `phony`
rule, the name as sole output and the dependencies as inputs. -/
def Writer.add_phony (w : Writer) (name : String) (deps : List String) : Writer :=
  w.add_build_action
    { rule := "phony", output := [name], inputs := deps,
      implicits := [], order_only := [], vars := [] }

/-- A writer as freshly constructed by `Writer.__init__` with no builddir:
empty node list and empty caches. -/
def Writer.initEmpty : Writer :=
  { nodes := [], ruleCache := [], actionCache := [] }

/-! ## POSIX path helpers (model of the `os.path` standard library calls the
sources make; the repository runs on Linux only, see utils.py `HostTools`). -/

/-- Model of two-argument `os.path.join` on POSIX: an absolute second component
replaces the first; otherwise the parts are joined with exactly one slash. -/
def pyJoin2 (a b : String) : String :=
  if strStartsWith b "/" then b
  else if a = "" then b
  else if strEndsWith a "/" then a ++ b
  else a ++ "/" ++ b

/-- Model of `os.path.join(base, *args)`: left fold of the two-argument join. -/
def pyJoinList (base : String) (parts : List String) : String :=
  parts.foldl pyJoin2 base

/-- Model of `os.path.dirname`: everything before the last slash (empty when
there is no slash). -/
def dirName (p : String) : String :=
  let parts := pySplitOn p '/'
  if parts.length ≤ 1 then ""
  else String.intercalate "/" (parts.dropLast)

/-- Model of `os.path.basename`: the part after the last slash. -/
def baseName (p : String) : String :=
  (pySplitOn p '/').getLastD ""

/-- Drops the longest common leading run of two lists (helper for `relPath`). -/
def dropCommon : List String → List String → List String × List String
  | [], ys => ([], ys)
  | xs, [] => (xs, [])
  | x :: xs, y :: ys =>
      if x = y then dropCommon xs ys else (x :: xs, y :: ys)

/-- Model of `os.path.relpath(path, start)` for relative POSIX paths: strip the
common prefix of the components, then climb out of what is left of `start`. -/
def relPath (p start : String) : String :=
  let (ps, ss) := dropCommon (pySplitOn p '/') (pySplitOn start '/')
  String.intercalate "/" (List.replicate ss.length ".." ++ ps)

/-! ## core/ninja_tools.py -/

/-- Python `set(deps)`: deduplicate a list, keeping first occurrences.  Used to
model the `set` values of the `_phonies` defaultdict. -/
def pySet (l : List String) : List String :=
  l.foldl (fun acc d => if d ∈ acc then acc else acc ++ [d]) []

/-- Python `s |= set(deps)` on string sets modelled as duplicate-free lists. -/
def pySetUnion (old new : List String) : List String :=
  new.foldl (fun acc d => if d ∈ acc then acc else acc ++ [d]) old

/-- Embeds class `Ninja` of core/ninja_tools.py: a `Writer` plus the
`_phonies` accumulation dict (`collections.defaultdict(set)`) mapping a phony
name to the set of dependencies accumulated so far, in insertion order. -/
structure Ninja where
  writer : Writer
  phonies : List (String × List String)
  acp : String
deriving Repr

/-- Looks up the accumulated dependency set for a phony name (first match). -/
def phonyDeps (n : Ninja) (name : String) : List String :=
  match n.phonies.find? (fun p => p.1 = name) with
  | some p => p.2
  | none => []

/-- Updates the first entry for `name` with the set union, or appends a fresh
entry (defaultdict semantics: a missing key starts from the empty set). -/
def addPhonyEntry : List (String × List String) → String → List String →
    List (String × List String)
  | [], name, deps => [(name, pySetUnion [] deps)]
  | p :: rest, name, deps =>
      if p.1 = name then (p.1, pySetUnion p.2 deps) :: rest
      else p :: addPhonyEntry rest name deps

/-- Embeds `Ninja.add_global_phony` (lines 61-71): `self._phonies[name] |= set(deps)`.
No node is appended; resolution is deferred to `write`. -/
def Ninja.add_global_phony (n : Ninja) (name : String) (deps : List String) : Ninja :=
  { n with phonies := addPhonyEntry n.phonies name deps }

/-- Embeds `Ninja.write` (lines 73-77): materializes one phony build action per
accumulated name (via `Writer.add_phony`) and returns the final writer whose
node list `super().write()` then serializes. -/
def Ninja.write (n : Ninja) : Writer :=
  n.phonies.foldl (fun w p => w.add_phony p.1 p.2) n.writer

/-- Embeds `Ninja.add_copy_file` (lines 48-59): declares the `copy_file` rule
(content-deduplicated) and one copy build action.  The rule construction
`Rule("copy_file", [("command", ...)])` uses only the allow-listed name
`command`, so its `add_variable` call cannot raise. -/
def Ninja.add_copy_file (n : Ninja) (copy_to copy_from : String) : Ninja :=
  let cmd := "mkdir -p ${out_dir} && " ++ n.acp ++ " -f ${in} ${out}"
  let rule : Rule := { name := "copy_file", vars := [⟨"command", cmd, 1⟩] }
  let w := n.writer.add_rule rule
  let action : BuildAction :=
    { rule := "copy_file", output := [copy_to], inputs := [copy_from],
      implicits := [n.acp], order_only := [],
      vars := [⟨"out_dir", dirName copy_to, 1⟩] }
  { n with writer := w.add_build_action action }

/-- Embeds `Ninja.add_write_file` (lines 79-91): declares the `write_file`
rule and a build action that materializes `content` at `filepath`. -/
def Ninja.add_write_file (n : Ninja) (filepath content : String) : Ninja :=
  let sq := String.singleton (Char.ofNat 39)
  let cmd := "printf " ++ sq ++ "${content}" ++ sq ++ " > ${out}"
  let rule : Rule :=
    { name := "write_file",
      vars := [⟨"description", "Writes content to out", 1⟩, ⟨"command", cmd, 1⟩] }
  let w := n.writer.add_rule rule
  let action : BuildAction :=
    { rule := "write_file", output := [filepath], inputs := [],
      implicits := [], order_only := [], vars := [⟨"content", content, 1⟩] }
  { n with writer := w.add_build_action action }

/-! ## core/nsjail.py -/

/-- Embeds class `MountPt` of core/nsjail.py: one filesystem mapping.  The
boolean keyword arguments pass through `_bool`, which is the identity on
`True`/`False`/`None`, hence `Option Bool` fields.  `__eq__` (lines 124-137)
compares every field, so structural equality is exactly Python equality. -/
structure MountPt where
  src : String := ""
  prefix_src_env : String := ""
  src_content : String := ""
  dst : String := ""
  prefix_dst_env : String := ""
  fstype : String := ""
  options : String := ""
  is_bind : Option Bool := none
  rw : Option Bool := none
  is_dir : Option Bool := none
  mandatory : Option Bool := none
  is_symlink : Option Bool := none
  nosuid : Option Bool := none
  nodev : Option Bool := none
  noexec : Option Bool := none
deriving DecidableEq, Repr

/-- Embeds `MountPt.copy` (lines 139-154): a field-for-field copy. -/
def MountPt.copy (m : MountPt) : MountPt := m

/-- Embeds class `Envar` of core/nsjail.py (name plus optional value). -/
structure Envar where
  name : String
  value : Option String
deriving DecidableEq, Repr

/-- Embeds class `Nsjail` of core/nsjail.py: working directory, verbosity and
the ordered mount/envar/option lists built up by the `add_*` methods. -/
structure Nsjail where
  cwd : String
  verbose : Bool := false
  mounts : List MountPt
  envars : List Envar
  opts : List (String × String)
deriving Repr

/-- Embeds the fixed base mount list installed by `Nsjail.__init__`
(core/nsjail.py lines 174-280). -/
def nsjailBaseMounts : List MountPt :=
  [ { src := "/proc", dst := "/proc", is_bind := some true, rw := some true,
      mandatory := some true },
    { src := "/etc/alternatives", dst := "/etc/alternatives", is_bind := some true,
      rw := some false, mandatory := some false },
    { dst := "/tmp", fstype := "tmpfs", rw := some true, is_bind := some false,
      noexec := some false, nodev := some true, nosuid := some true },
    { dst := "/dev/shm", fstype := "tmpfs", rw := some true, is_bind := some false },
    { src := "/dev/tty", dst := "/dev/tty", rw := some true, is_bind := some true },
    { src := "/proc/self/fd/0", dst := "/dev/stdin", is_symlink := some true },
    { src := "/proc/self/fd/1", dst := "/dev/stdout", is_symlink := some true },
    { src := "/proc/self/fd/2", dst := "/dev/stderr", is_symlink := some true },
    { src_content := "user:x:999999:65533:user:/tmp:/bin/bash\nnobody:x:65534:65534:nobody:/nonexistent:/usr/sbin/nologin\n",
      dst := "/etc/passwd", mandatory := some false },
    { src_content := "group::65533:user\nnogroup::65534:nobody\n",
      dst := "/etc/group", mandatory := some false },
    { src_content := "\n", dst := "/etc/mtab", mandatory := some false },
    { src := "/proc/self/fd", dst := "/dev/fd", is_symlink := some true,
      mandatory := some false },
    { src := "/dev/null", dst := "/dev/null", rw := some true, is_bind := some true },
    { src := "/dev/urandom", dst := "/dev/urandom", rw := some false, is_bind := some true },
    { src := "/dev/random", dst := "/dev/random", rw := some false, is_bind := some true },
    { src := "/dev/zero", dst := "/dev/zero", is_bind := some true },
    { src := "/lib", dst := "/lib", is_bind := some true, rw := some false },
    { src := "/bin", dst := "/bin", is_bind := some true, rw := some false },
    { src := "/sbin", dst := "/sbin", is_bind := some true, rw := some false },
    { src := "/usr", dst := "/usr", is_bind := some true, rw := some false },
    { src := "/lib64", dst := "/lib64", is_bind := some true, rw := some false,
      mandatory := some false },
    { src := "/lib32", dst := "/lib32", is_bind := some true, rw := some false,
      mandatory := some false } ]

/-- Embeds the `Nsjail.__init__` constructor (lines 170-293): base mounts, the
two default envars and an empty option list. -/
def Nsjail.init (cwd : String) (verbose : Bool := false) : Nsjail :=
  { cwd := cwd, verbose := verbose, mounts := nsjailBaseMounts,
    envars := [⟨"HOME", some "/tmp"⟩, ⟨"PATH", some "/usr/bin:/usr/sbin:/bin:/sbin"⟩],
    opts := [] }

/-- Embeds `Nsjail.add_mountpt` (lines 303-305). -/
def Nsjail.add_mountpt (n : Nsjail) (m : MountPt) : Nsjail :=
  { n with mounts := n.mounts ++ [m] }

/-- Embeds the `Nsjail.mount_points` property (lines 321-327): the list of
mount destinations. -/
def Nsjail.mount_points (n : Nsjail) : List String :=
  n.mounts.map (fun m => m.dst)

/-- Embeds the dict comprehension `{x.dst: x for x in self.mounts}` of
`Nsjail.add_nsjail` (line 334): a destination-keyed snapshot in which a later
mount with the same destination overwrites an earlier one (dict semantics). -/
def dstStep (d : List (String × MountPt)) (m : MountPt) : List (String × MountPt) :=
  if d.any (fun p => p.1 = m.dst) then d.map (fun p => if p.1 = m.dst then (p.1, m) else p)
  else d ++ [(m.dst, m)]

def dstDict (mounts : List MountPt) : List (String × MountPt) :=
  mounts.foldl dstStep []

/-- First-match association lookup on the destination dict. -/
def dstLookup (d : List (String × MountPt)) (dst : String) : Option MountPt :=
  match d.find? (fun p => p.1 = dst) with
  | some p => some p.2
  | none => none

/-- Embeds `Nsjail.add_nsjail` (lines 329-339): asserts that the other config's
working directory is nested under ours (string prefixation, `str.startswith`),
then merges the other's mounts against the destination snapshot of our mounts:
a fresh destination is appended, a colliding destination must carry an equal
`MountPt` or the assertion fails.  Assertion failures are `Except.error`.
`addNsjailStep` is the body of the merge loop (lines 335-339). -/
def addNsjailStep (ourMounts : List (String × MountPt)) (acc : Nsjail) (m : MountPt) :
    Except String Nsjail :=
  match dstLookup ourMounts m.dst with
  | none => Except.ok { acc with mounts := acc.mounts ++ [m] }
  | some m' =>
      if m = m' then Except.ok acc
      else Except.error "mount collision with a different spec"

def addNsjailLoop (ourMounts : List (String × MountPt)) (acc : Nsjail) :
    List MountPt → Except String Nsjail
  | [] => Except.ok acc
  | m :: rest =>
      match addNsjailStep ourMounts acc m with
      | Except.ok acc' => addNsjailLoop ourMounts acc' rest
      | Except.error e => Except.error e

def Nsjail.add_nsjail (a other : Nsjail) : Except String Nsjail :=
  if ¬ strStartsWith other.cwd a.cwd then
    Except.error "Must be a subdir"
  else
    addNsjailLoop (dstDict a.mounts) a other.mounts

/-- The Python value held by the `mounts` attribute at the moment
`Nsjail.copy` evaluates `self.mounts()`: always a plain list. -/
inductive PyMountsVal where
  | pylist (xs : List MountPt)
deriving Repr

/-- Python call semantics for that value: a `list` object is not callable, so
applying call parentheses to it raises `TypeError`. -/
def pyCall (v : PyMountsVal) : Except String (List MountPt) :=
  match v with
  | PyMountsVal.pylist _ =>
      Except.error "TypeError: list object is not callable"

/-- Embeds `Nsjail.copy` (lines 315-319): builds a fresh `Nsjail(self.cwd,
verbose=self.verbose)` and then evaluates `[x.copy() for x in self.mounts()]`
— calling the `mounts` list attribute — before assigning `ret.mounts`. -/
def Nsjail.copy (n : Nsjail) : Except String Nsjail := do
  let ret := Nsjail.init n.cwd n.verbose
  let ms ← pyCall (PyMountsVal.pylist n.mounts)
  Except.ok { ret with mounts := ms.map MountPt.copy }

/-! ## core/utils.py — the error-collection interface -/

/-- Embeds `Errors.error` of core/utils.py (lines 158-177): formats an error
record as `file:line:col: message` (each part only when truthy — note that a
line or column number of `0` is falsy and omitted) with a trailing newline, and
appends it to the accumulated list. -/
def errorsError (acc : List String) (message : String) (file : String)
    (line col : Nat) : List String :=
  let s0 := if file ≠ "" then file ++ ":" else ""
  let s1 := if line ≠ 0 then s0 ++ toString line ++ ":" else s0
  let s2 := if col ≠ 0 then s1 ++ toString col ++ ":" else s1
  let s3 := if s2 ≠ "" then s2 ++ " " else s2
  let s4 := s3 ++ message
  let s5 := if strEndsWith s4 "\n" then s4 else s4 ++ "\n"
  acc ++ [s5]

/-! ## core/api_assembly.py — loading and collating contributions -/

/-- The position information carried by Python's `json.decoder.JSONDecodeError`. -/
structure JsonDecodeError where
  msg : String
  lineno : Nat
  colno : Nat
deriving DecidableEq, Repr

/-- A header set of a library entry in a contribution descriptor: a module
name, a root path and the member header files (§6 of the spec; consumed by
core/cc/api_assembly.py). -/
structure HeaderSet where
  name : String
  root : String
  headers : List String
deriving DecidableEq, Repr

/-- One library entry under a per-language key of a contribution descriptor:
`library["name"]` is the grouping component, `api` and `headers` are consumed
during assembly. -/
structure LibraryEntry where
  name : String
  api : String
  headers : List HeaderSet
deriving DecidableEq, Repr

/-- The parsed JSON content of one contribution descriptor file, with the
top-level fields the collator reads: `name` (surface), `version`, `api_domain`
and one library list per recognized language key. -/
structure ContributionJson where
  name : String
  version : Int
  api_domain : String
  cc_libraries : List LibraryEntry
  java_libraries : List LibraryEntry
  resource_libraries : List LibraryEntry
deriving DecidableEq, Repr

/-- Embeds `json_data.get(language, [])` for the three recognized language keys. -/
def ContributionJson.getLang (j : ContributionJson) (language : String) : List LibraryEntry :=
  if language = "cc_libraries" then j.cc_libraries
  else if language = "java_libraries" then j.java_libraries
  else if language = "resource_libraries" then j.resource_libraries
  else []

/-- Embeds `STUB_LANGUAGE_HANDLERS.keys()` (core/api_assembly.py lines
176-180), in dict insertion order. -/
def STUB_LANGUAGES : List String :=
  ["cc_libraries", "java_libraries", "resource_libraries"]

/-- Embeds `load_contribution_file` (core/api_assembly.py lines 111-119).  The
outcome of `json.load` is passed in as `parsed`; file input is outside the
model.  On a decode error the function records the error through the
error-collection interface and then *re-raises the exception* (`raise ex`,
line 119) — the `Except.error` propagates to the caller, it does not return
the `None` promised by the docstring. -/
def load_contribution_file (errors : List String) (filename : String)
    (parsed : Except JsonDecodeError ContributionJson) :
    List String × Except JsonDecodeError (Option ContributionJson) :=
  match parsed with
  | Except.ok j => (errors, Except.ok (some j))
  | Except.error ex =>
      (errorsError errors ex.msg filename ex.lineno ex.colno, Except.error ex)

/-- Embeds namedtuple `ContributionData` (inner tree, parsed json). -/
structure ContributionData where
  inner_tree_root : String
  json_data : ContributionJson
deriving DecidableEq, Repr

/-- Embeds class `StubLibraryContribution` (core/api_assembly.py lines
122-127). -/
structure StubLibraryContribution where
  inner_tree_root : String
  api_domain : String
  library_contribution : LibraryEntry
deriving DecidableEq, Repr

/-- Embeds class `StubLibrary` (core/api_assembly.py lines 130-140). -/
structure StubLibrary where
  language : String
  api_surface : String
  api_surface_version : Int
  name : String
  contributions : List StubLibraryContribution
deriving DecidableEq, Repr

/-- The grouping key of `collate_contributions` (line 151):
`(language, json_data["name"], json_data["version"], library["name"])`. -/
abbrev GroupKey := String × String × Int × String

/-- The grouping key a `StubLibrary` was created from. -/
def StubLibrary.groupKey (sl : StubLibrary) : GroupKey :=
  (sl.language, sl.api_surface, sl.api_surface_version, sl.name)

/-- The `StubLibrary(language, name, version, library_name)` constructed on a
grouping-dict miss (collate_contributions lines 154-158), with the given
contribution list. -/
def mkStubLib (k : GroupKey) (contribs : List StubLibraryContribution) : StubLibrary :=
  { language := k.1, api_surface := k.2.1, api_surface_version := k.2.2.1,
    name := k.2.2.2, contributions := contribs }

/-- The `(key, contribution)` pairs one parsed descriptor generates: the two
inner loops of `collate_contributions` (lines 148-162), languages in handler
order, libraries in descriptor order. -/
def entriesOf (c : ContributionData) : List (GroupKey × StubLibraryContribution) :=
  STUB_LANGUAGES.flatMap (fun language =>
    (c.json_data.getLang language).map (fun library =>
      ((language, c.json_data.name, c.json_data.version, library.name),
       ⟨c.inner_tree_root, c.json_data.api_domain, library⟩)))

/-- One step of the grouping dict `grouped`: look the key up; on a miss create
`StubLibrary(language, name, version, library_name)` and insert it at the end
(dict insertion order); then `add_contribution` appends the contribution to
the (first-match) group. -/
def addEntry : List (GroupKey × StubLibrary) → GroupKey → StubLibraryContribution →
    List (GroupKey × StubLibrary)
  | [], k, e =>
      [(k, { language := k.1, api_surface := k.2.1, api_surface_version := k.2.2.1,
             name := k.2.2.2, contributions := [e] })]
  | p :: rest, k, e =>
      if p.1 = k then (p.1, { p.2 with contributions := p.2.contributions ++ [e] }) :: rest
      else p :: addEntry rest k e

/-- Embeds `collate_contributions` (core/api_assembly.py lines 143-163):
iterates contributions, languages and library entries in order, groups by
`GroupKey` in a dict, and returns `list(grouped.values())`. -/
def collate_contributions (cs : List ContributionData) : List StubLibrary :=
  ((cs.flatMap entriesOf).foldl (fun g ke => addEntry g ke.1 ke.2) []).map (fun p => p.2)

/-! ## core/interrogate.py -/

/-- A JSON value as produced by `json.load` (integral numbers suffice for the
describe-response fields this module inspects). -/
inductive PyJson where
  | null
  | bool (b : Bool)
  | num (n : Int)
  | str (s : String)
  | arr (xs : List PyJson)
  | obj (fields : List (String × PyJson))

/-- Python truthiness of a JSON value: `None`, `False`, `0`, `""` and empty
containers are falsy. -/
def PyJson.truthy : PyJson → Bool
  | PyJson.null => false
  | PyJson.bool b => b
  | PyJson.num n => n ≠ 0
  | PyJson.str s => s ≠ ""
  | PyJson.arr xs => ¬ xs.isEmpty
  | PyJson.obj fs => ¬ fs.isEmpty

/-- First-match field lookup on a JSON object field list. -/
def jsonLookup (fields : List (String × PyJson)) (k : String) : Option PyJson :=
  match fields.find? (fun p => p.1 = k) with
  | some p => some p.2
  | none => none

/-- Python `dict.setdefault(k, v)`: returns the stored value for `k`, inserting
`v` at the end first when `k` is absent; the pair is (updated dict, value). -/
def setdefault (fields : List (String × PyJson)) (k : String) (v : PyJson) :
    List (String × PyJson) × PyJson :=
  match jsonLookup fields k with
  | some w => (fields, w)
  | none => (fields ++ [(k, v)], v)

/-- Embeds `_VALID_KEYS` of core/interrogate.py (line 19). -/
def VALID_KEYS : List String := ["version", "domain_data"]

/-- Embeds `set(info_json.keys()) - _VALID_KEYS` being non-empty
(core/interrogate.py line 58): some top-level key is outside the valid set. -/
def hasInvalidKey (fields : List (String × PyJson)) : Bool :=
  fields.any (fun p => decide (p.1 ∉ VALID_KEYS))

/-- Embeds the validation portion of `interrogate_tree` (core/interrogate.py
lines 56-67), applied to the parsed describe response: non-object responses
and unknown top-level keys raise `DescribeError`; then
`info_json.setdefault("version", 0)` must be falsy (so a present non-zero
version raises), and `domain_data` is defaulted to the empty list. -/
def interrogateValidate (j : PyJson) : Except String PyJson :=
  match j with
  | PyJson.obj fields =>
      if hasInvalidKey fields then
        Except.error "Invalid keyname in describe response."
      else
        let (fields1, v) := setdefault fields "version" (PyJson.num 0)
        if v.truthy then
          Except.error "Invalid version"
        else
          Except.ok (PyJson.obj (setdefault fields1 "domain_data" (PyJson.arr [])).1)
  | _ => Except.error "Malformed describe response"

/-! ## core/inner_tree.py — melding (`InnerTree.meld_config`, lines 174-207) -/

/-- A diagnostic written to stderr by the meld logic. -/
inductive MeldEvent where
  | alreadyMounted (dst src : String)
  | melded (src dst : String)
deriving DecidableEq, Repr

/-- Embeds the nested function `_meld_git(shared, src)` of
`InnerTree.meld_config` (lines 174-191).  `root` is `self.root`, `innerAbs` is
`inner_tree_src_path = os.path.abspath(self.root)`, `abspath` models
`os.path.abspath`, and `primaryNonEmptyDir dst` models
`os.path.isdir(dst) and os.listdir(dst)` — whether the primary tree already
has a non-empty directory at the destination.  A destination that is already
mounted is skipped with a diagnostic; an absent-or-empty destination gets a
read-only bind mount; a present non-empty destination is left untouched. -/
def meldGit (root innerAbs : String) (abspath : String → String)
    (primaryNonEmptyDir : String → Bool) (cfg : Nsjail) (shared src : String) :
    Nsjail × Option MeldEvent :=
  let rel := strDrop src (shared.length + 1)
  let dst := pyJoin2 root rel
  let absDst := pyJoin2 innerAbs rel
  let absSrc := abspath src
  if absDst ∈ cfg.mount_points then
    (cfg, some (MeldEvent.alreadyMounted dst src))
  else if ¬ primaryNonEmptyDir dst then
    (cfg.add_mountpt { src := absSrc, dst := absDst, is_bind := some true,
                       rw := some false, mandatory := some true },
     some (MeldEvent.melded src dst))
  else
    (cfg, none)

/-- Embeds the meld walk of `InnerTree.meld_config` (lines 193-207): for each
overlay root `shared` (in order), `os.walk` visits its version-controlled
subtrees and calls `_meld_git` on each; recursion is pruned below each one.
The walk's output is abstracted as the ordered list of `(shared, src)` pairs
on which `_meld_git` fires; the fold also collects the diagnostics. -/
def meldWalk (root innerAbs : String) (abspath : String → String)
    (primaryNonEmptyDir : String → Bool) (cfg : Nsjail)
    (pairs : List (String × String)) : Nsjail × List MeldEvent :=
  pairs.foldl (fun acc p =>
    let (cfg', ev) := meldGit root innerAbs abspath primaryNonEmptyDir acc.1 p.1 p.2
    (cfg', acc.2 ++ ev.toList)) (cfg, [])

/-! ## core/utils.py — OutDir path layout (parameterized by the out root) -/

/-- Embeds `OutDir.api_library_dir` (utils.py lines 105-112):
`<out>/api_surfaces/<surface>/<version>/<library>`. -/
def api_library_dir (outRoot surface version library : String) : String :=
  pyJoinList outRoot ["api_surfaces", surface, version, library]

/-- Embeds `OutDir.api_surfaces_work_dir` (utils.py lines 126-129):
`<out>/intermediates/api_surfaces/...`. -/
def api_surfaces_work_dir (outRoot : String) (args : List String) : String :=
  pyJoinList outRoot (["intermediates", "api_surfaces"] ++ args)

/-- Embeds `OutDir.api_library_work_dir` (utils.py lines 114-120):
`<out>/intermediates/api_surfaces/<surface>/<version>/<library>`. -/
def api_library_work_dir (outRoot surface version library : String) : String :=
  pyJoinList (api_surfaces_work_dir outRoot []) [surface, version, library]

/-! ## core/cc/api_assembly.py and core/cc/stub_generator.py -/

/-- Embeds `ARCHES` (core/cc/api_assembly.py line 22). -/
def ARCHES : List String := ["arm", "arm64", "x86", "x86_64"]

/-- Embeds `ASSEMBLE_PHONY_TARGET` (core/cc/api_assembly.py line 24). -/
def ASSEMBLE_PHONY_TARGET : String := "multitree-sdk"

/-- Embeds `NDKSTUBGEN` (core/cc/stub_generator.py line 27). -/
def NDKSTUBGEN : String := "orchestrator/build/orchestrator/core/cc/ndkstubgen_runner.sh"

/-- Embeds `CcApiAssemblyContext._additional_ndkstubgen_args`
(core/cc/api_assembly.py lines 98-108). -/
def additional_ndkstubgen_args (api_surface : String) : String :=
  if api_surface = "vendorapi" then "--llndk"
  else if api_surface = "systemapi" then "--apex --systemapi"
  else ""

/-- Embeds `GenCcStubsInput` (core/cc/stub_generator.py lines 29-36). -/
structure GenCcStubsInput where
  arch : String
  version : String
  version_map : String
  api : String
  additional_args : String
deriving DecidableEq, Repr

/-- Embeds `GenCcStubsOutput` (core/cc/stub_generator.py lines 38-41) as the
output list `list(outputs)` used for the build action:
`[work_dir/arch/stub.c, work_dir/arch/stub.map, work_dir/arch/abi_symbol_list.txt]`. -/
def genCcStubsOutputs (work_dir arch : String) : List String :=
  [pyJoinList work_dir [arch, "stub.c"],
   pyJoinList work_dir [arch, "stub.map"],
   pyJoinList work_dir [arch, "abi_symbol_list.txt"]]

/-- Embeds the rule built by `StubGenerator._add_stubgen_rule`
(core/cc/stub_generator.py lines 56-64): `Rule("genCcStubsRule")` with
`description` and `command` added through `add_variable` (both names are in
the allow-list, so neither call raises). -/
def genCcStubsRule : Rule :=
  { name := "genCcStubsRule",
    vars := [⟨"description", "Generate stub .c files from .map.txt API description files", 1⟩,
             ⟨"command", "${ndkstubgen} --arch ${arch} --api ${apiLevel} --api-map ${apiMap} ${additionalArgs} ${in} ${out}", 1⟩] }

/-- Mutable state of `CcApiAssemblyContext` and its `StubGenerator`: whether
the stubgen rule has been installed (`_stubgen_rule`) and whether the API
levels file action has been emitted (`_api_levels_file_added`). -/
structure CcAssemblyCtx where
  stubgenRule : Option Rule
  apiLevelsAdded : Bool
deriving Repr

/-- The build action `StubGenerator.add_stubgen_action` emits for one input
(core/cc/stub_generator.py lines 82-96): outputs under `work_dir/arch`, the
API description as input, the stubgen runner and the api-levels map as
implicit inputs, and the four action-scoped variables added through
`BuildAction.add_variable`, in insertion order. -/
def stubActionOf (stub_input : GenCcStubsInput) (work_dir : String) : BuildAction :=
  { rule := "genCcStubsRule",
    output := genCcStubsOutputs work_dir stub_input.arch,
    inputs := [stub_input.api],
    implicits := [NDKSTUBGEN, stub_input.version_map],
    order_only := [],
    vars := [⟨"arch", stub_input.arch, 1⟩,
             ⟨"apiLevel", stub_input.version, 1⟩,
             ⟨"apiMap", stub_input.version_map, 1⟩,
             ⟨"additionalArgs", stub_input.additional_args, 1⟩] }

def add_stubgen_action (cctx : CcAssemblyCtx) (nj : Ninja)
    (stub_input : GenCcStubsInput) (work_dir : String) : CcAssemblyCtx × Ninja :=
  let (cctx, nj) :=
    match cctx.stubgenRule with
    | some _ => (cctx, nj)
    | none =>
        let w := (nj.writer.add_variable ⟨"ndkstubgen", NDKSTUBGEN, 0⟩).add_rule genCcStubsRule
        ({ cctx with stubgenRule := some genCcStubsRule }, { nj with writer := w })
  (cctx, { nj with writer := nj.writer.add_build_action (stubActionOf stub_input work_dir) })

/-- Embeds the `api_levels` table of `_add_api_levels_file`
(core/cc/api_assembly.py lines 110-140) after the active-codename loop:
released codenames plus `UpsideDownCake` at the preview base `9000 + 0`. -/
def api_levels : List (String × Int) :=
  [("G", 9), ("I", 14), ("J", 16), ("J-MR1", 17), ("J-MR2", 18), ("K", 19),
   ("L", 21), ("L-MR1", 22), ("M", 23), ("N", 24), ("N-MR1", 25), ("O", 26),
   ("O-MR1", 27), ("P", 28), ("Q", 29), ("R", 30), ("S", 31), ("S-V2", 32),
   ("Tiramisu", 33), ("UpsideDownCake", 9000)]

/-- Model of `json.dumps` on a string-to-int dict in insertion order. -/
def jsonDumpsIntDict (d : List (String × Int)) : String :=
  let q := String.singleton (Char.ofNat 34)
  let body := String.intercalate ", "
    (d.map (fun p => q ++ p.1 ++ q ++ ": " ++ toString p.2))
  "\x7b" ++ body ++ "\x7d"

/-- Embeds `CcApiAssemblyContext._api_levels_file` (core/cc/api_assembly.py
lines 145-149). -/
def api_levels_file (outRoot : String) : String :=
  api_surfaces_work_dir outRoot ["api_levels.json"]

/-- Embeds `CcApiAssemblyContext._add_api_levels_file` (lines 110-143): a
write-file action materializing the api-levels map. -/
def add_api_levels_file (outRoot : String) (nj : Ninja) : Ninja :=
  nj.add_write_file (api_levels_file outRoot) (jsonDumpsIntDict api_levels)

/-- State threaded through `assemble_cc_api_library`: the context object, the
ninja writer and the `api_deps` accumulator. -/
structure CcAssemblyState where
  cctx : CcAssemblyCtx
  ninja : Ninja
  api_deps : List String
deriving Repr

/-- The body of the innermost header-staging loop of `assemble_cc_api_library`
(core/cc/api_assembly.py lines 53-61): copy one header file into its header
set's include directory (with the root prefix stripped) and record it as a
dependency. -/
def stageHeaderFile (staging incName incRoot treeRoot : String)
    (st : CcAssemblyState) (file : String) : CcAssemblyState :=
  let rel := relPath file incRoot
  let includeFile := pyJoin2 (pyJoin2 staging incName) rel
  { st with ninja := st.ninja.add_copy_file includeFile (pyJoin2 treeRoot file),
            api_deps := st.api_deps ++ [includeFile] }

/-- One header set of a contribution (lines 48-61): each set gets its own
include directory named after the set. -/
def stageHeaderSet (staging treeRoot : String) (st : CcAssemblyState)
    (hs : HeaderSet) : CcAssemblyState :=
  hs.headers.foldl (stageHeaderFile staging hs.name hs.root treeRoot) st

/-- One architecture of the ndkstubgen loop (lines 70-80). -/
def stageStubArch (versionStr apiMapFile apiOut extra workDir : String)
    (st : CcAssemblyState) (arch : String) : CcAssemblyState :=
  let r := add_stubgen_action st.cctx st.ninja
    { arch := arch, version := versionStr, version_map := apiMapFile,
      api := apiOut, additional_args := extra } workDir
  { st with cctx := r.1, ninja := r.2 }

/-- The body of the per-contribution loop of `assemble_cc_api_library`
(core/cc/api_assembly.py lines 47-80): stage each header set under its own
include directory, stage the ABI description file, and emit one stubgen build
action per arch. -/
def assembleContribution (outRoot surface versionStr libName : String)
    (st : CcAssemblyState) (contrib : StubLibraryContribution) : CcAssemblyState :=
  let staging := api_library_dir outRoot surface versionStr libName
  let work_dir := api_library_work_dir outRoot surface versionStr libName
  let st := contrib.library_contribution.headers.foldl
    (stageHeaderSet staging contrib.inner_tree_root) st
  let api := contrib.library_contribution.api
  let api_out := pyJoin2 staging (baseName api)
  let st := { st with
    ninja := st.ninja.add_copy_file api_out (pyJoin2 contrib.inner_tree_root api),
    api_deps := st.api_deps ++ [api_out] }
  let extra := additional_ndkstubgen_args surface
  ARCHES.foldl (stageStubArch versionStr (api_levels_file outRoot) api_out extra work_dir) st

/-- The tail of `CcApiAssemblyContext.assemble_cc_api_library`
(core/cc/api_assembly.py lines 84-96): emit the api-levels file once per run,
then the per-library phony named `"-".join([surface, str(version), name])`
depending on `api_deps`, and extend the global `multitree-sdk` phony. -/
def finishCcLibrary (outRoot surface versionStr libName : String)
    (st : CcAssemblyState) : CcAssemblyCtx × Ninja :=
  let njLevels : Ninja :=
    if st.cctx.apiLevelsAdded then st.ninja else add_api_levels_file outRoot st.ninja
  let cctxOut : CcAssemblyCtx :=
    if st.cctx.apiLevelsAdded then st.cctx else { st.cctx with apiLevelsAdded := true }
  let phony := String.intercalate "-" [surface, versionStr, libName]
  let njPhony := { njLevels with writer := njLevels.writer.add_phony phony st.api_deps }
  (cctxOut, njPhony.add_global_phony ASSEMBLE_PHONY_TARGET [phony])

/-- Embeds `CcApiAssemblyContext.assemble_cc_api_library`
(core/cc/api_assembly.py lines 39-96) for a stub library whose version has
already been set to the string `versionStr`: loop over the contributions
(header staging, ABI staging, per-arch stubgen), then finish with the
api-levels file and the phony targets. -/
def assemble_cc_api_library (outRoot : String) (cctx : CcAssemblyCtx) (nj : Ninja)
    (surface versionStr libName : String) (contributions : List StubLibraryContribution) :
    CcAssemblyCtx × Ninja :=
  finishCcLibrary outRoot surface versionStr libName
    (contributions.foldl (assembleContribution outRoot surface versionStr libName)
      { cctx := cctx, ninja := nj, api_deps := [] })

/-- Embeds the version fan-out of `assemble_apis` (core/api_assembly.py lines
76-82): `versions = list(range(1, 34)); versions.append("current")`, each
version converted with `str` when assigned to `api_surface_version`. -/
def fanoutVersions : List String :=
  (List.range' 1 33).map toString ++ ["current"]

/-- Embeds the dispatch of `assemble_apis` for a `cc_libraries` stub library
(core/api_assembly.py lines 76-86): surfaces versioned by platform API level
(`publicapi`, `module-libapi`) fan out over `fanoutVersions`, mutating
`stub_library.api_surface_version` before each handler call; other surfaces
are assembled once with the collated version. -/
def assembleCcStubLibrary (outRoot : String) (cctx : CcAssemblyCtx) (nj : Ninja)
    (sl : StubLibrary) : CcAssemblyCtx × Ninja :=
  if sl.api_surface = "publicapi" ∨ sl.api_surface = "module-libapi" then
    fanoutVersions.foldl (fun acc v =>
      assemble_cc_api_library outRoot acc.1 acc.2 sl.api_surface v sl.name sl.contributions)
      (cctx, nj)
  else
    assemble_cc_api_library outRoot cctx nj sl.api_surface (toString sl.api_surface_version)
      sl.name sl.contributions

/-! ## Theorems -/

/-- C10: For every Nsjail sandbox configuration object, `copy()` always raises:
the method evaluates `self.mounts()` although `mounts` is a list attribute,
not a callable, so the `TypeError` fires before any copy is returned and no
`Nsjail` value is ever duplicated through this interface. -/
theorem nsjail_copy_always_raises (n : Nsjail) :
    Nsjail.copy n = Except.error "TypeError: list object is not callable" := by
  rfl

/-- C1: Evaluating `load_contribution_file` at a descriptor whose content does
not parse: the parse error is recorded through the error-collection interface,
but the function then *re-raises* the exception instead of returning `None` as
its own docstring promises, so the collation loop in `assemble_apis` (which
tests `if not json_data: continue`) is aborted rather than skipping the
descriptor. -/
theorem load_contribution_file_raises_on_parse_error :
    load_contribution_file [] "tree1/out/api_contributions/contrib.json"
        (Except.error ⟨"Expecting value", 1, 1⟩)
      = (["tree1/out/api_contributions/contrib.json:1:1: Expecting value\n"],
         Except.error ⟨"Expecting value", 1, 1⟩) := by
  decide

/-- C2 counterexample: a `BuildAction` with no outputs is constructed without
any exception (`__init__` performs no validation), and the
`BuildActionException` fires only later, when the node is serialized by
`stream`.  This refutes the claim that every graph-construction error is
raised at the moment the node is constructed and never at write time. -/
theorem buildAction_no_output_constructs_then_stream_fails :
    BuildAction.init "mycmd" [] [] [] [] []
      = Except.ok { rule := "mycmd", output := [], inputs := [], implicits := [],
                    order_only := [], vars := [] }
    ∧ BuildAction.stream { rule := "mycmd", output := [], inputs := [], implicits := [],
                           order_only := [], vars := [] }
      = Except.error "Output is required in a ninja build statement" := by
  exact ⟨rfl, rfl⟩

/-- C2 amended: adding a variable outside the allowed set to a `Rule` raises at
the moment `add_variable` is called; but a `BuildAction` is never validated at
construction time — construction always succeeds — and the checks for an empty
output list and an empty (undeclared) rule name raise only when the node is
serialized by `stream`. -/
theorem graph_construction_error_timing :
    (∀ (r : Rule) (name value : String),
      (∃ r', Rule.add_variable r name value = Except.ok r') ↔ name ∈ RULE_VARIABLES)
    ∧ (∀ (rule : String) (output inputs implicits order_only : List String)
         (varList : List (String × String)),
        ∃ b, BuildAction.init rule output inputs implicits order_only varList = Except.ok b)
    ∧ (∀ b : BuildAction,
        (∃ ls, BuildAction.stream b = Except.ok ls) ↔ (¬ b.output.isEmpty ∧ b.rule ≠ "")) := by
  refine ⟨?_, ?_, ?_⟩
  · intro r name value
    unfold Rule.add_variable
    by_cases h : name ∈ RULE_VARIABLES
    · simp [h]
    · simp [h]
  · intro rule output inputs implicits order_only varList
    exact ⟨_, rfl⟩
  · intro b
    rw [BuildAction.stream_ok_iff]
    unfold BuildAction.validate
    by_cases h1 : b.output.isEmpty
    · simp [h1]
    · by_cases h2 : b.rule = ""
      · simp [h1, h2]
      · simp [h1, h2]

/-- Lookup distributes over an append whose left part lacks the key. -/
theorem jsonLookup_append_none (fields extra : List (String × PyJson)) (k : String)
    (h : jsonLookup fields k = none) :
    jsonLookup (fields ++ extra) k = jsonLookup extra k := by
  induction fields with
  | nil => rfl
  | cons p rest ih =>
      simp only [jsonLookup, List.find?] at h ⊢
      cases hp : (p.1 = k : Bool) with
      | true => simp [hp] at h
      | false =>
          simp only [hp] at h ⊢
          exact ih h

/-- The rejection condition of claim C9, following the spec's words: the
response is not a JSON object, or carries a key outside
`{version, domain_data}`, or has a version field that is present and
non-zero. -/
def describeRejectsSpec (j : PyJson) : Prop :=
  (∀ fields, j ≠ PyJson.obj fields)
  ∨ (∃ fields kv, j = PyJson.obj fields ∧ kv ∈ fields ∧ kv.1 ∉ VALID_KEYS)
  ∨ (∃ fields n, j = PyJson.obj fields ∧ jsonLookup fields "version" = some (PyJson.num n)
       ∧ n ≠ 0)

/-- C9: For describe responses whose `version` field, when present, is a JSON
number, validation raises a fatal `DescribeError` exactly when the response is
not a JSON object, contains a key outside `{version, domain_data}`, or has a
present non-zero version; and a well-keyed object missing both fields is
accepted with `version` defaulted to `0` and `domain_data` defaulted to the
empty list. -/
theorem interrogate_validation_spec (j : PyJson)
    (hnum : ∀ fields v, j = PyJson.obj fields → jsonLookup fields "version" = some v →
      ∃ n, v = PyJson.num n) :
    ((∃ e, interrogateValidate j = Except.error e) ↔ describeRejectsSpec j)
    ∧ (∀ fields, j = PyJson.obj fields →
        (∀ kv ∈ fields, kv.1 ∈ VALID_KEYS) →
        jsonLookup fields "version" = none →
        jsonLookup fields "domain_data" = none →
        interrogateValidate j =
          Except.ok (PyJson.obj (fields ++ [("version", PyJson.num 0),
                                            ("domain_data", PyJson.arr [])]))) := by
  constructor
  · cases j with
    | obj fields =>
        simp only [interrogateValidate]
        cases hbad : hasInvalidKey fields with
        | true =>
            simp only [hbad, if_true]
            constructor
            · intro _
              rcases List.any_eq_true.mp hbad with ⟨kv, hkv, hdec⟩
              exact Or.inr (Or.inl ⟨fields, kv, rfl, hkv, of_decide_eq_true hdec⟩)
            · intro _; exact ⟨_, rfl⟩
        | false =>
            have hok : ∀ kv ∈ fields, kv.1 ∈ VALID_KEYS := by
              intro kv hkv
              by_contra hc
              have : hasInvalidKey fields = true :=
                List.any_eq_true.mpr ⟨kv, hkv, decide_eq_true hc⟩
              rw [hbad] at this
              exact Bool.noConfusion this
            simp only [hbad, if_false, Bool.false_eq_true]
            cases hver : jsonLookup fields "version" with
            | none =>
                simp only [setdefault, hver, PyJson.truthy]
                constructor
                · rintro ⟨e, he⟩
                  simp at he
                · rintro (h | ⟨fs, kv, hfs, hkv, hnot⟩ | ⟨fs, n, hfs, hv, hn⟩)
                  · exact absurd rfl (h fields)
                  · cases hfs
                    exact absurd (hok kv hkv) hnot
                  · cases hfs
                    rw [hver] at hv
                    exact absurd hv (by simp)
            | some v =>
                obtain ⟨n, rfl⟩ := hnum fields v rfl hver
                simp only [setdefault, hver, PyJson.truthy]
                by_cases hn : n = 0
                · subst hn
                  constructor
                  · rintro ⟨e, he⟩
                    simp at he
                  · rintro (h | ⟨fs, kv, hfs, hkv, hnot⟩ | ⟨fs, m, hfs, hv, hm⟩)
                    · exact absurd rfl (h fields)
                    · cases hfs
                      exact absurd (hok kv hkv) hnot
                    · cases hfs
                      rw [hver] at hv
                      cases hv
                      exact absurd rfl hm
                · constructor
                  · intro _
                    exact Or.inr (Or.inr ⟨fields, n, rfl, hver, hn⟩)
                  · intro _
                    exact ⟨"Invalid version", by simp [hn]⟩
    | null => simp [interrogateValidate, describeRejectsSpec]
    | bool b => simp [interrogateValidate, describeRejectsSpec]
    | num n => simp [interrogateValidate, describeRejectsSpec]
    | str s => simp [interrogateValidate, describeRejectsSpec]
    | arr xs => simp [interrogateValidate, describeRejectsSpec]
  · intro fields hj hkeys hver hdd
    subst hj
    have hbad : hasInvalidKey fields = false := by
      rw [Bool.eq_false_iff]
      intro hc
      rcases List.any_eq_true.mp hc with ⟨kv, hkv, hdec⟩
      exact absurd (hkeys kv hkv) (of_decide_eq_true hdec)
    simp only [interrogateValidate, hbad, if_false, Bool.false_eq_true]
    simp only [setdefault, hver,
      jsonLookup_append_none fields [("version", PyJson.num 0)] "domain_data" hdd]
    simp [PyJson.truthy, jsonLookup]

/-- The one-step dict update neither adds nor removes keys other than the
processed mount's destination. -/
theorem dstStep_hasKey (acc : List (String × MountPt)) (m : MountPt) (d : String) :
    (∃ p ∈ dstStep acc m, p.1 = d) ↔ (∃ p ∈ acc, p.1 = d) ∨ m.dst = d := by
  unfold dstStep
  by_cases h : acc.any (fun p => p.1 = m.dst)
  · rcases List.any_eq_true.mp h with ⟨q, hq, hqd⟩
    have hqd' : q.1 = m.dst := by simpa using hqd
    simp only [h, if_true]
    constructor
    · rintro ⟨p, hp, hpd⟩
      rcases List.mem_map.mp hp with ⟨p0, hp0, hmap⟩
      by_cases hc : p0.1 = m.dst
      · left
        exact ⟨p0, hp0, by
          rw [if_pos hc] at hmap
          rw [← hmap] at hpd
          exact hpd⟩
      · left
        rw [if_neg hc] at hmap
        exact ⟨p0, hp0, hmap ▸ hpd⟩
    · rintro (⟨p, hp, hpd⟩ | hmd)
      · by_cases hc : p.1 = m.dst
        · exact ⟨(p.1, m), List.mem_map.mpr ⟨p, hp, by rw [if_pos hc]⟩, hpd⟩
        · exact ⟨p, List.mem_map.mpr ⟨p, hp, by rw [if_neg hc]⟩, hpd⟩
      · exact ⟨(q.1, m), List.mem_map.mpr ⟨q, hq, by rw [if_pos hqd']⟩, hqd'.trans hmd⟩
  · simp only [h, if_false]
    constructor
    · rintro ⟨p, hp, hpd⟩
      rcases List.mem_append.mp hp with hl | hr
      · exact Or.inl ⟨p, hl, hpd⟩
      · simp at hr
        subst hr
        exact Or.inr hpd
    · rintro (⟨p, hp, hpd⟩ | hmd)
      · exact ⟨p, List.mem_append.mpr (Or.inl hp), hpd⟩
      · exact ⟨(m.dst, m), List.mem_append.mpr (Or.inr (by simp)), hmd⟩

/-- The destinations keyed by the dict snapshot are exactly the mounts'
destinations. -/
theorem dstDict_hasKey (ms : List MountPt) (d : String) :
    (∃ p ∈ dstDict ms, p.1 = d) ↔ ∃ m ∈ ms, m.dst = d := by
  suffices h : ∀ (acc : List (String × MountPt)),
      (∃ p ∈ ms.foldl dstStep acc, p.1 = d) ↔ (∃ p ∈ acc, p.1 = d) ∨ ∃ m ∈ ms, m.dst = d by
    have := h []
    simpa [dstDict] using this
  induction ms with
  | nil => intro acc; simp
  | cons m rest ih =>
      intro acc
      simp only [List.foldl_cons]
      rw [ih (dstStep acc m), dstStep_hasKey]
      constructor
      · rintro (( h | h) | h)
        · exact Or.inl h
        · exact Or.inr ⟨m, by simp, h⟩
        · rcases h with ⟨m', hm', hd⟩
          exact Or.inr ⟨m', by simp [hm'], hd⟩
      · rintro (h | ⟨m', hm', hd⟩)
        · exact Or.inl (Or.inl h)
        · rcases List.mem_cons.mp hm' with rfl | hm''
          · exact Or.inl (Or.inr hd)
          · exact Or.inr ⟨m', hm'', hd⟩

/-- A destination absent from the mounts is absent from the dict snapshot. -/
theorem dstLookup_eq_none (ms : List MountPt) (d : String)
    (h : ∀ m ∈ ms, m.dst ≠ d) : dstLookup (dstDict ms) d = none := by
  unfold dstLookup
  cases hf : (dstDict ms).find? (fun p => p.1 = d) with
  | none => rfl
  | some p =>
      have hp := List.find?_some hf
      have hmem := List.mem_of_find?_eq_some hf
      have : ∃ q ∈ dstDict ms, q.1 = d := ⟨p, hmem, by simpa using hp⟩
      rcases (dstDict_hasKey ms d).mp this with ⟨m, hm, hd⟩
      exact absurd hd (h m hm)

/-- With pairwise-distinct destinations the dict snapshot is just the list of
`(dst, mount)` pairs in order. -/
theorem dstDict_of_nodup (ms : List MountPt) (hnd : (ms.map (fun m => m.dst)).Nodup) :
    dstDict ms = ms.map (fun m => (m.dst, m)) := by
  suffices h : ∀ (acc : List (String × MountPt)),
      (∀ m ∈ ms, ∀ p ∈ acc, p.1 ≠ m.dst) →
      (ms.map (fun m => m.dst)).Nodup →
      ms.foldl dstStep acc = acc ++ ms.map (fun m => (m.dst, m)) by
    simpa [dstDict] using h [] (by simp) hnd
  clear hnd
  induction ms with
  | nil => intro acc _ _; simp
  | cons m rest ih =>
      intro acc hfresh hnd
      simp only [List.foldl_cons]
      have hnone : acc.any (fun p => p.1 = m.dst) = false := by
        rw [Bool.eq_false_iff]
        intro hc
        rcases List.any_eq_true.mp hc with ⟨p, hp, hpd⟩
        exact absurd (by simpa using hpd) (hfresh m (by simp) p hp)
      have hstep : dstStep acc m = acc ++ [(m.dst, m)] := by
        unfold dstStep
        rw [hnone]
        simp
      rw [hstep]
      rw [List.map_cons, List.nodup_cons] at hnd
      have hrest := ih (acc ++ [(m.dst, m)]) (by
        intro m' hm' p hp
        rcases List.mem_append.mp hp with hl | hr
        · exact hfresh m' (by simp [hm']) p hl
        · simp at hr
          subst hr
          intro hc
          exact hnd.1 (List.mem_map.mpr ⟨m', hm', hc.symm⟩)) hnd.2
      rw [hrest]
      simp

/-- Lookup in the pair list built from distinct-destination mounts finds the
unique mount with the requested destination. -/
theorem dstLookup_map (ms : List MountPt) (d : String) :
    dstLookup (ms.map (fun m => (m.dst, m))) d = ms.find? (fun m => m.dst = d) := by
  induction ms with
  | nil => rfl
  | cons m rest ih =>
      unfold dstLookup at ih ⊢
      simp only [List.map_cons, List.find?]
      cases hc : (m.dst = d : Bool) with
      | true => simp [hc]
      | false => simpa [hc] using ih

/-- Merging over only fresh destinations appends every mount, in order. -/
theorem addNsjailLoop_fresh (our : List (String × MountPt)) (bs : List MountPt) :
    ∀ (acc : Nsjail), (∀ m ∈ bs, dstLookup our m.dst = none) →
    addNsjailLoop our acc bs = Except.ok { acc with mounts := acc.mounts ++ bs } := by
  induction bs with
  | nil => intro acc _; simp [addNsjailLoop]
  | cons m rest ih =>
      intro acc h
      have hm := h m (by simp)
      have hstep : addNsjailStep our acc m = Except.ok { acc with mounts := acc.mounts ++ [m] } := by
        unfold addNsjailStep
        rw [hm]
      have hrest := ih { acc with mounts := acc.mounts ++ [m] }
        (fun m' hm' => h m' (by simp [hm']))
      unfold addNsjailLoop
      rw [hstep]
      simpa [List.append_assoc] using hrest

/-- Merging a list that contains a mount whose destination collides with a
different spec in the snapshot always errors. -/
theorem addNsjailLoop_error (our : List (String × MountPt)) (bs : List MountPt) :
    ∀ (acc : Nsjail),
    (∃ m ∈ bs, ∃ m', dstLookup our m.dst = some m' ∧ m ≠ m') →
    ∃ e, addNsjailLoop our acc bs = Except.error e := by
  induction bs with
  | nil => intro acc h; simp at h
  | cons m0 rest ih =>
      intro acc h
      rcases h with ⟨m, hm, m', hl, hne⟩
      rcases List.mem_cons.mp hm with rfl | hm'
      · refine ⟨"mount collision with a different spec", ?_⟩
        have hstep : addNsjailStep our acc m =
            Except.error "mount collision with a different spec" := by
          unfold addNsjailStep
          rw [hl]
          simp [hne]
        unfold addNsjailLoop
        rw [hstep]
      · cases hstep : addNsjailStep our acc m0 with
        | error e =>
            exact ⟨e, by unfold addNsjailLoop; rw [hstep]⟩
        | ok acc' =>
            rcases ih acc' ⟨m, hm', m', hl, hne⟩ with ⟨e, he⟩
            exact ⟨e, by unfold addNsjailLoop; rw [hstep]; exact he⟩

/-- C6: Merging sandbox config `b` into `a`:
with `b`'s working directory not nested under `a`'s the merge always fails;
with nested working directories and destination-disjoint mount sets it always
succeeds and `a`'s mount list afterwards is the concatenation (hence the
destination-keyed union) of both; and when some destination occurs in both
configs with non-equal mount specs the merge always fails. -/
theorem add_nsjail_union_spec :
    (∀ a b : Nsjail, ¬ strStartsWith b.cwd a.cwd →
      ∃ e, a.add_nsjail b = Except.error e)
    ∧ (∀ a b : Nsjail, strStartsWith b.cwd a.cwd →
      (∀ m ∈ a.mounts, ∀ m' ∈ b.mounts, m.dst ≠ m'.dst) →
      ∃ c, a.add_nsjail b = Except.ok c ∧ c.cwd = a.cwd
        ∧ c.mounts = a.mounts ++ b.mounts
        ∧ ∀ m, m ∈ c.mounts ↔ m ∈ a.mounts ∨ m ∈ b.mounts)
    ∧ (∀ a b : Nsjail, strStartsWith b.cwd a.cwd →
      (a.mounts.map (fun m => m.dst)).Nodup →
      (∃ mb ∈ b.mounts, ∃ ma ∈ a.mounts, ma.dst = mb.dst ∧ ma ≠ mb) →
      ∃ e, a.add_nsjail b = Except.error e) := by
  refine ⟨?_, ?_, ?_⟩
  · intro a b h
    unfold Nsjail.add_nsjail
    rw [if_pos h]
    exact ⟨_, rfl⟩
  · intro a b hcwd hdisj
    unfold Nsjail.add_nsjail
    rw [if_neg (by simpa using hcwd)]
    have hfresh : ∀ m ∈ b.mounts, dstLookup (dstDict a.mounts) m.dst = none := by
      intro m hm
      exact dstLookup_eq_none a.mounts m.dst (fun ma hma => hdisj ma hma m hm)
    rw [addNsjailLoop_fresh (dstDict a.mounts) b.mounts a hfresh]
    exact ⟨_, rfl, rfl, rfl, fun m => by simp⟩
  · intro a b hcwd hnd ⟨mb, hmb, ma, hma, hdst, hne⟩
    unfold Nsjail.add_nsjail
    rw [if_neg (by simpa using hcwd)]
    apply addNsjailLoop_error
    refine ⟨mb, hmb, ma, ?_, fun hc => hne (hc ▸ rfl)⟩
    rw [dstDict_of_nodup a.mounts hnd, dstLookup_map]
    cases hf : a.mounts.find? (fun m => m.dst = mb.dst) with
    | none =>
        rw [List.find?_eq_none] at hf
        exact absurd (by simpa using hdst) (by simpa using hf ma hma)
    | some m0 =>
        have hp0 : m0.dst = mb.dst := by simpa using List.find?_some hf
        have hm0 : m0 ∈ a.mounts := List.mem_of_find?_eq_some hf
        have : m0 = ma := by
          have hinj := List.inj_on_of_nodup_map hnd
          exact hinj hm0 hma (by rw [hp0, hdst])
        rw [this]

/-- Witness for C6 at concrete configs: a non-nested cwd fails, disjoint
destinations merge to the concatenation, and a colliding destination with a
different spec fails. -/
theorem add_nsjail_union_spec_witness :
    (∃ e, Nsjail.add_nsjail ⟨"/src/a", false, [], [], []⟩ ⟨"/other", false, [], [], []⟩
        = Except.error e)
    ∧ (∃ c, Nsjail.add_nsjail
          ⟨"/src", false, [{ dst := "/d1" }], [], []⟩
          ⟨"/src/sub", false, [{ dst := "/d2" }], [], []⟩ = Except.ok c
        ∧ c.mounts = [{ dst := "/d1" }, { dst := "/d2" }])
    ∧ (∃ e, Nsjail.add_nsjail
          ⟨"/src", false, [{ dst := "/d1", rw := some false }], [], []⟩
          ⟨"/src/sub", false, [{ dst := "/d1", rw := some true }], [], []⟩
        = Except.error e) := by
  refine ⟨?_, ?_, ?_⟩
  · exact add_nsjail_union_spec.1 _ _ (by decide)
  · rcases add_nsjail_union_spec.2.1
        ⟨"/src", false, [{ dst := "/d1" }], [], []⟩
        ⟨"/src/sub", false, [{ dst := "/d2" }], [], []⟩
        (by decide) (by decide) with ⟨c, hc, _, hm, _⟩
    exact ⟨c, hc, by rw [hm]; rfl⟩
  · exact add_nsjail_union_spec.2.2 _ _ (by decide) (by decide)
      ⟨{ dst := "/d1", rw := some true }, by decide,
       { dst := "/d1", rw := some false }, by decide, by decide, by decide⟩

/-- Witness for C9 at concrete inputs: `{"version": 1}` is rejected and
`{}` is accepted with both fields defaulted. -/
theorem interrogate_validation_spec_witness :
    (∃ e, interrogateValidate (PyJson.obj [("version", PyJson.num 1)]) = Except.error e)
    ∧ interrogateValidate (PyJson.obj []) =
        Except.ok (PyJson.obj [("version", PyJson.num 0), ("domain_data", PyJson.arr [])]) := by
  constructor
  · exact (interrogate_validation_spec (PyJson.obj [("version", PyJson.num 1)])
      (by intro fields v hf hv; cases hf; simp [jsonLookup] at hv; exact ⟨1, hv.symm⟩)).1.mpr
      (Or.inr (Or.inr ⟨[("version", PyJson.num 1)], 1, rfl, by simp [jsonLookup], by decide⟩))
  · exact (interrogate_validation_spec (PyJson.obj [])
      (by intro fields v hf hv; cases hf; simp [jsonLookup] at hv)).2 [] rfl
      (by intro kv hkv; simp at hkv) (by simp [jsonLookup]) (by simp [jsonLookup])

/-- A cache hit leaves the writer untouched. -/
theorem add_rule_hit (w : Writer) (r : Rule)
    (h : ∃ rc ∈ w.ruleCache, rc.key = r.key) : w.add_rule r = w := by
  unfold Writer.add_rule
  rcases h with ⟨rc, hrc, hkey⟩
  rw [if_pos (List.any_eq_true.mpr ⟨rc, hrc, decide_eq_true hkey⟩)]

/-- A cache miss appends the rule to the nodes and to the cache. -/
theorem add_rule_miss (w : Writer) (r : Rule)
    (h : ∀ rc ∈ w.ruleCache, rc.key ≠ r.key) :
    w.add_rule r = { w with nodes := w.nodes ++ [NinjaNode.rule r],
                            ruleCache := w.ruleCache ++ [r] } := by
  unfold Writer.add_rule
  rw [if_neg]
  intro hc
  rcases List.any_eq_true.mp hc with ⟨rc, hrc, hkey⟩
  exact h rc hrc (of_decide_eq_true hkey)

/-- Re-adding rules whose keys are already cached is a no-op. -/
theorem foldl_add_rule_all_hit (rs : List Rule) :
    ∀ (w : Writer), (∀ r' ∈ rs, ∃ rc ∈ w.ruleCache, rc.key = r'.key) →
    rs.foldl Writer.add_rule w = w := by
  induction rs with
  | nil => intro w _; rfl
  | cons r rest ih =>
      intro w h
      simp only [List.foldl_cons]
      rw [add_rule_hit w r (h r (by simp))]
      exact ih w (fun r' hr' => h r' (by simp [hr']))

/-- A cache hit leaves the writer untouched (build actions). -/
theorem add_build_action_hit (w : Writer) (b : BuildAction)
    (h : ∃ bc ∈ w.actionCache, bc.key = b.key) : w.add_build_action b = w := by
  unfold Writer.add_build_action
  rcases h with ⟨bc, hbc, hkey⟩
  rw [if_pos (List.any_eq_true.mpr ⟨bc, hbc, decide_eq_true hkey⟩)]

/-- A cache miss appends the build action to the nodes and to the cache. -/
theorem add_build_action_miss (w : Writer) (b : BuildAction)
    (h : ∀ bc ∈ w.actionCache, bc.key ≠ b.key) :
    w.add_build_action b = { w with nodes := w.nodes ++ [NinjaNode.buildAction b],
                                    actionCache := w.actionCache ++ [b] } := by
  unfold Writer.add_build_action
  rw [if_neg]
  intro hc
  rcases List.any_eq_true.mp hc with ⟨bc, hbc, hkey⟩
  exact h bc hbc (of_decide_eq_true hkey)

/-- Re-adding build actions whose keys are already cached is a no-op. -/
theorem foldl_add_build_action_all_hit (bs : List BuildAction) :
    ∀ (w : Writer), (∀ b' ∈ bs, ∃ bc ∈ w.actionCache, bc.key = b'.key) →
    bs.foldl Writer.add_build_action w = w := by
  induction bs with
  | nil => intro w _; rfl
  | cons b rest ih =>
      intro w h
      simp only [List.foldl_cons]
      rw [add_build_action_hit w b (h b (by simp))]
      exact ih w (fun b' hb' => h b' (by simp [hb']))

/-- C4: `add_rule` and `add_build_action` are idempotent under content-equal
repeated calls: starting from a writer that has not yet seen the content key,
adding `1 + N` key-equal rules (respectively build actions) appends exactly
one node to the writer's node list. -/
theorem add_rule_add_build_action_idempotent :
    (∀ (w : Writer) (r : Rule) (rs : List Rule),
      (∀ r' ∈ rs, r'.key = r.key) →
      (∀ rc ∈ w.ruleCache, rc.key ≠ r.key) →
      ((r :: rs).foldl Writer.add_rule w).nodes = w.nodes ++ [NinjaNode.rule r])
    ∧ (∀ (w : Writer) (b : BuildAction) (bs : List BuildAction),
      (∀ b' ∈ bs, b'.key = b.key) →
      (∀ bc ∈ w.actionCache, bc.key ≠ b.key) →
      ((b :: bs).foldl Writer.add_build_action w).nodes
        = w.nodes ++ [NinjaNode.buildAction b]) := by
  constructor
  · intro w r rs hsame hfresh
    simp only [List.foldl_cons]
    rw [add_rule_miss w r hfresh]
    rw [foldl_add_rule_all_hit rs _ (fun r' hr' =>
      ⟨r, by simp, (hsame r' hr').symm⟩)]
  · intro w b bs hsame hfresh
    simp only [List.foldl_cons]
    rw [add_build_action_miss w b hfresh]
    rw [foldl_add_build_action_all_hit bs _ (fun b' hb' =>
      ⟨b, by simp, (hsame b' hb').symm⟩)]

/-- A sample rule for the C4 witness. -/
def sampleRule : Rule := { name := "r", vars := [] }

/-- A sample build action for the C4 witness. -/
def sampleAction : BuildAction :=
  { rule := "phony", output := ["t"], inputs := [], implicits := [],
    order_only := [], vars := [] }

/-- Witness for C4: adding the same rule three times and the same build action
twice each yields exactly one node. -/
theorem add_rule_add_build_action_idempotent_witness :
    ((List.replicate 3 sampleRule).foldl Writer.add_rule Writer.initEmpty).nodes
      = [NinjaNode.rule sampleRule]
    ∧ ((List.replicate 2 sampleAction).foldl Writer.add_build_action Writer.initEmpty).nodes
      = [NinjaNode.buildAction sampleAction] := by
  constructor
  · exact add_rule_add_build_action_idempotent.1 Writer.initEmpty sampleRule
      (List.replicate 2 sampleRule) (by intro r' hr'; simp at hr'; rw [hr'])
      (by intro rc hrc; simp [Writer.initEmpty] at hrc)
  · exact add_rule_add_build_action_idempotent.2 Writer.initEmpty sampleAction
      (List.replicate 1 sampleAction) (by intro b' hb'; simp at hb'; rw [hb'])
      (by intro bc hbc; simp [Writer.initEmpty] at hbc)

/-- Membership in the Python set union. -/
theorem pySetUnion_mem (old new : List String) (d : String) :
    d ∈ pySetUnion old new ↔ d ∈ old ∨ d ∈ new := by
  induction new generalizing old with
  | nil => simp [pySetUnion]
  | cons x rest ih =>
      unfold pySetUnion at ih ⊢
      simp only [List.foldl_cons]
      by_cases hx : x ∈ old
      · rw [if_pos hx, ih old]
        constructor
        · rintro (h | h)
          · exact Or.inl h
          · exact Or.inr (by simp [h])
        · rintro (h | h)
          · exact Or.inl h
          · rcases List.mem_cons.mp h with rfl | h'
            · exact Or.inl hx
            · exact Or.inr h'
      · rw [if_neg hx, ih (old ++ [x])]
        constructor
        · rintro (h | h)
          · rcases List.mem_append.mp h with h' | h'
            · exact Or.inl h'
            · simp at h'
              exact Or.inr (by simp [h'])
          · exact Or.inr (by simp [h])
        · rintro (h | h)
          · exact Or.inl (List.mem_append.mpr (Or.inl h))
          · rcases List.mem_cons.mp h with rfl | h'
            · exact Or.inl (List.mem_append.mpr (Or.inr (by simp)))
            · exact Or.inr h'

/-- The Python set union keeps the accumulated list duplicate-free. -/
theorem pySetUnion_nodup (old new : List String) (h : old.Nodup) :
    (pySetUnion old new).Nodup := by
  induction new generalizing old with
  | nil => simpa [pySetUnion] using h
  | cons x rest ih =>
      unfold pySetUnion at ih ⊢
      simp only [List.foldl_cons]
      by_cases hx : x ∈ old
      · rw [if_pos hx]
        exact ih old h
      · rw [if_neg hx]
        refine ih (old ++ [x]) ?_
        rw [List.nodup_append]
        refine ⟨h, by simp, ?_⟩
        intro a ha hax
        simp only [List.mem_singleton] at hax
        exact hx (hax ▸ ha)

/-- Accumulation updates the first entry for the name with the set union (a
missing name starts from the empty set, per `defaultdict(set)`). -/
theorem addPhonyEntry_lookup_same (ps : List (String × List String))
    (name : String) (deps : List String) :
    (addPhonyEntry ps name deps).find? (fun p => p.1 = name)
      = some (name, pySetUnion ((ps.find? (fun p => p.1 = name)).elim [] Prod.snd) deps) := by
  induction ps with
  | nil => simp [addPhonyEntry, pySetUnion]
  | cons p rest ih =>
      unfold addPhonyEntry
      by_cases hp : p.1 = name
      · rw [if_pos hp]
        rw [List.find?_cons_of_pos _ (by simp [hp])]
        rw [List.find?_cons_of_pos _ (by simp [hp])]
        simp [hp]
      · rw [if_neg hp]
        rw [List.find?_cons_of_neg _ (by simp [hp])]
        rw [List.find?_cons_of_neg _ (by simp [hp])]
        exact ih

/-- Accumulation leaves other names' entries alone. -/
theorem addPhonyEntry_lookup_other (ps : List (String × List String))
    (name other : String) (deps : List String) (h : other ≠ name) :
    (addPhonyEntry ps name deps).find? (fun p => p.1 = other)
      = ps.find? (fun p => p.1 = other) := by
  induction ps with
  | nil =>
      rw [show addPhonyEntry [] name deps = [(name, pySetUnion [] deps)] from rfl]
      rw [List.find?_cons_of_neg _ (by simp [Ne.symm h])]
  | cons p rest ih =>
      unfold addPhonyEntry
      by_cases hp : p.1 = name
      · rw [if_pos hp]
        have hno : p.1 ≠ other := by rw [hp]; exact Ne.symm h
        rw [List.find?_cons_of_neg _ (by simp [hno])]
        rw [List.find?_cons_of_neg _ (by simp [hno])]
      · rw [if_neg hp]
        by_cases ho : p.1 = other
        · rw [List.find?_cons_of_pos _ (by simp [ho])]
          rw [List.find?_cons_of_pos _ (by simp [ho])]
        · rw [List.find?_cons_of_neg _ (by simp [ho])]
          rw [List.find?_cons_of_neg _ (by simp [ho])]
          exact ih

/-- Folding a sequence of `add_global_phony name deps_i` calls. -/
def globalPhonyCalls (n : Ninja) (name : String) (depss : List (List String)) : Ninja :=
  depss.foldl (fun acc ds => acc.add_global_phony name ds) n

/-- C5 accumulation facts, proved by induction over the call sequence. -/
theorem globalPhonyCalls_spec (n : Ninja) (name : String) (depss : List (List String)) :
    (∀ d, d ∈ phonyDeps (globalPhonyCalls n name depss) name ↔
       d ∈ phonyDeps n name ∨ ∃ ds ∈ depss, d ∈ ds)
    ∧ (globalPhonyCalls n name depss).writer = n.writer
    ∧ ((phonyDeps n name).Nodup → (phonyDeps (globalPhonyCalls n name depss) name).Nodup) := by
  induction depss generalizing n with
  | nil => simp [globalPhonyCalls]
  | cons ds rest ih =>
      have hstep_deps : phonyDeps (n.add_global_phony name ds) name
          = pySetUnion (phonyDeps n name) ds := by
        unfold phonyDeps Ninja.add_global_phony
        rw [addPhonyEntry_lookup_same]
        cases hf : n.phonies.find? (fun p => p.1 = name) with
        | none => simp [hf]
        | some p => simp [hf]
      rcases ih (n.add_global_phony name ds) with ⟨h1, h2, h3⟩
      refine ⟨?_, ?_, ?_⟩
      · intro d
        rw [show globalPhonyCalls n name (ds :: rest)
              = globalPhonyCalls (n.add_global_phony name ds) name rest from rfl]
        rw [h1 d, hstep_deps, pySetUnion_mem]
        constructor
        · rintro ((h | h) | h)
          · exact Or.inl h
          · exact Or.inr ⟨ds, by simp, h⟩
          · rcases h with ⟨ds', hds', hd⟩
            exact Or.inr ⟨ds', by simp [hds'], hd⟩
        · rintro (h | ⟨ds', hds', hd⟩)
          · exact Or.inl (Or.inl h)
          · rcases List.mem_cons.mp hds' with rfl | h'
            · exact Or.inl (Or.inr hd)
            · exact Or.inr ⟨ds', h', hd⟩
      · rw [show globalPhonyCalls n name (ds :: rest)
              = globalPhonyCalls (n.add_global_phony name ds) name rest from rfl]
        rw [h2]
        rfl
      · intro hnd
        rw [show globalPhonyCalls n name (ds :: rest)
              = globalPhonyCalls (n.add_global_phony name ds) name rest from rfl]
        exact h3 (by rw [hstep_deps]; exact pySetUnion_nodup _ _ hnd)

/-- Recognizes a phony build action for `name` in the node list. -/
def isPhonyFor (name : String) : NinjaNode → Bool
  | NinjaNode.buildAction b => decide (b.output = [name] ∧ b.rule = "phony")
  | _ => false

/-- The phony build action `Writer.add_phony` constructs for an accumulated
entry. -/
def phonyActionFor (name : String) (deps : List String) : BuildAction :=
  { rule := "phony", output := [name], inputs := deps,
    implicits := [], order_only := [], vars := [] }

/-- `add_phony` is `add_build_action` of the phony action it constructs. -/
theorem add_phony_eq (w : Writer) (k : String) (ds : List String) :
    w.add_phony k ds = w.add_build_action (phonyActionFor k ds) := rfl

/-- One `add_phony` call only ever appends its own phony action. -/
theorem add_phony_nodes_cases (w' : Writer) (k : String) (ds : List String) :
    ∀ nd ∈ (w'.add_phony k ds).nodes,
      nd ∈ w'.nodes ∨ nd = NinjaNode.buildAction (phonyActionFor k ds) := by
  intro nd hnd
  rw [add_phony_eq] at hnd
  by_cases hhit : ∃ bc ∈ w'.actionCache, bc.key = (phonyActionFor k ds).key
  · rw [add_build_action_hit _ _ hhit] at hnd
    exact Or.inl hnd
  · rw [add_build_action_miss _ _ (by push_neg at hhit; exact hhit)] at hnd
    simp only [List.mem_append] at hnd
    rcases hnd with h | h
    · exact Or.inl h
    · simp at h
      exact Or.inr h

/-- An `add_phony` call for a different name does not change how many phony
actions for `name` the node list holds. -/
theorem add_phony_count_other (w' : Writer) (name k : String) (ds : List String)
    (hk : k ≠ name) :
    (w'.add_phony k ds).nodes.countP (isPhonyFor name)
      = w'.nodes.countP (isPhonyFor name) := by
  rw [add_phony_eq]
  by_cases hhit : ∃ bc ∈ w'.actionCache, bc.key = (phonyActionFor k ds).key
  · rw [add_build_action_hit _ _ hhit]
  · rw [add_build_action_miss _ _ (by push_neg at hhit; exact hhit)]
    rw [List.countP_append]
    simp [isPhonyFor, phonyActionFor, hk]

/-- Materializing the accumulated phonies: the entry for `name` produces
exactly one phony action for `name`, whose inputs are the accumulated set, as
long as no phony for that name was emitted before `write` (the accumulated
names are unique because `_phonies` is a dict). -/
theorem ninja_write_materializes (ps : List (String × List String)) :
    ∀ (w : Writer) (name : String) (deps : List String),
    ((name, deps) ∈ ps) →
    ((ps.map Prod.fst).Nodup) →
    (∀ bc ∈ w.actionCache, bc.output ≠ [name]) →
    ((w.nodes.countP (isPhonyFor name)) = 0) →
    ((ps.foldl (fun w p => w.add_phony p.1 p.2) w).nodes).countP (isPhonyFor name) = 1
    ∧ ∀ b, NinjaNode.buildAction b ∈ (ps.foldl (fun w p => w.add_phony p.1 p.2) w).nodes →
        b.output = [name] → b.rule = "phony" → b.inputs = deps := by
  induction ps with
  | nil => intro w name deps hmem _ _ _; simp at hmem
  | cons p rest ih =>
      intro w name deps hmem hkeys hcache hnodes
      rw [List.map_cons, List.nodup_cons] at hkeys
      simp only [List.foldl_cons]
      by_cases hp : p.1 = name
      · have hrestk : ∀ q ∈ rest, q.1 ≠ name := by
          intro q hq hc
          exact hkeys.1 (hp ▸ hc ▸ List.mem_map.mpr ⟨q, hq, rfl⟩)
        have hpd : p = (name, deps) := by
          rcases List.mem_cons.mp hmem with h | h
          · exact h.symm
          · exact (hrestk (name, deps) h rfl).elim
        subst hpd
        have hfresh : ∀ bc ∈ w.actionCache, bc.key ≠ (phonyActionFor name deps).key := by
          intro bc hbc hkey
          have : bc.output = [name] := by
            have := congrArg (fun t => t.1) hkey
            simpa [BuildAction.key, phonyActionFor] using this
          exact hcache bc hbc this
        have hw' : w.add_phony name deps
            = { w with nodes := w.nodes ++ [NinjaNode.buildAction (phonyActionFor name deps)],
                       actionCache := w.actionCache ++ [phonyActionFor name deps] } := by
          unfold Writer.add_phony
          exact add_build_action_miss w (phonyActionFor name deps) hfresh
        rw [hw']
        have hrest : ∀ (qs : List (String × List String)) (w' : Writer),
            (∀ q ∈ qs, q.1 ≠ name) →
            (w'.nodes.countP (isPhonyFor name) = 1) →
            (∀ b, NinjaNode.buildAction b ∈ w'.nodes → b.output = [name] →
              b.rule = "phony" → b.inputs = deps) →
            ((qs.foldl (fun w p => w.add_phony p.1 p.2) w').nodes).countP (isPhonyFor name) = 1
            ∧ ∀ b, NinjaNode.buildAction b ∈
                (qs.foldl (fun w p => w.add_phony p.1 p.2) w').nodes →
                b.output = [name] → b.rule = "phony" → b.inputs = deps := by
          intro qs
          induction qs with
          | nil => intro w' _ h1 h2; exact ⟨h1, h2⟩
          | cons q qrest ihq =>
              intro w' hq h1 h2
              simp only [List.foldl_cons]
              have hqname : q.1 ≠ name := hq q (by simp)
              refine ihq (w'.add_phony q.1 q.2) (fun q' hq' => hq q' (by simp [hq']))
                ((add_phony_count_other w' name q.1 q.2 hqname).trans h1) ?_
              intro b hb hout hrule
              rcases add_phony_nodes_cases w' q.1 q.2 (NinjaNode.buildAction b) hb with h | h
              · exact h2 b h hout hrule
              · simp only [NinjaNode.buildAction.injEq] at h
                subst h
                exact absurd (by simpa [phonyActionFor] using hout) hqname
        apply hrest rest _ hrestk
        · rw [List.countP_append, hnodes]
          simp [isPhonyFor, phonyActionFor]
        · intro b hb hout hrule
          simp only [List.mem_append] at hb
          rcases hb with h | h
          · exact (List.countP_eq_zero.mp hnodes _ h
              (by simp [isPhonyFor, hout, hrule])).elim
          · simp at h
            subst h
            rfl
      · have hnodes' : (w.add_phony p.1 p.2).nodes.countP (isPhonyFor name) = 0 :=
          (add_phony_count_other w name p.1 p.2 hp).trans hnodes
        have hcache' : ∀ bc ∈ (w.add_phony p.1 p.2).actionCache, bc.output ≠ [name] := by
          intro bc hbc
          rw [add_phony_eq] at hbc
          by_cases hhit : ∃ bc' ∈ w.actionCache, bc'.key = (phonyActionFor p.1 p.2).key
          · rw [add_build_action_hit _ _ hhit] at hbc
            exact hcache bc hbc
          · rw [add_build_action_miss _ _ (by push_neg at hhit; exact hhit)] at hbc
            simp only [List.mem_append] at hbc
            rcases hbc with h | h
            · exact hcache bc h
            · simp at h
              subst h
              simp [phonyActionFor, hp]
        exact ih (w.add_phony p.1 p.2) name deps
          (by rcases List.mem_cons.mp hmem with h | h
              · exact absurd (congrArg Prod.fst h.symm) hp
              · exact h)
          hkeys.2 hcache' hnodes'

/-- The accumulated set is the found entry's value. -/
theorem phonyDeps_of_find (n' : Ninja) (name : String) (v : String × List String)
    (h : n'.phonies.find? (fun p => p.1 = name) = some v) :
    phonyDeps n' name = v.2 := by
  unfold phonyDeps
  rw [h]

/-- After any `add_global_phony name` call, the accumulated entry for `name`
is present and holds its accumulated set. -/
theorem after_call_find (n : Ninja) (name : String) (ds : List String) :
    (n.add_global_phony name ds).phonies.find? (fun p => p.1 = name)
      = some (name, phonyDeps (n.add_global_phony name ds) name) := by
  have hfind : (n.add_global_phony name ds).phonies.find? (fun p => p.1 = name)
      = some (name, pySetUnion ((n.phonies.find? (fun p => p.1 = name)).elim [] Prod.snd) ds) :=
    addPhonyEntry_lookup_same n.phonies name ds
  rw [hfind, phonyDeps_of_find _ name _ hfind]

/-- The presence of the accumulated entry survives further calls. -/
theorem find_stable (name : String) (depss : List (List String)) :
    ∀ (n : Ninja),
    n.phonies.find? (fun p => p.1 = name) = some (name, phonyDeps n name) →
    (globalPhonyCalls n name depss).phonies.find? (fun p => p.1 = name)
      = some (name, phonyDeps (globalPhonyCalls n name depss) name) := by
  induction depss with
  | nil => intro n h; exact h
  | cons ds rest ih =>
      intro n _
      exact ih (n.add_global_phony name ds) (after_call_find n name ds)

/-- Accumulation only ever appends the accumulated name to the key list. -/
theorem addPhonyEntry_keys (ps : List (String × List String)) (name : String)
    (deps : List String) :
    (addPhonyEntry ps name deps).map Prod.fst
      = if name ∈ ps.map Prod.fst then ps.map Prod.fst
        else ps.map Prod.fst ++ [name] := by
  induction ps with
  | nil => simp [addPhonyEntry]
  | cons p rest ih =>
      unfold addPhonyEntry
      by_cases hp : p.1 = name
      · rw [if_pos hp]
        simp [hp]
      · rw [if_neg hp]
        simp only [List.map_cons]
        rw [ih]
        by_cases hmem : name ∈ rest.map Prod.fst
        · rw [if_pos hmem, if_pos (by simp [hmem])]
        · rw [if_neg hmem, if_neg (by simp [hmem]; exact fun h => hp h.symm)]
          simp

/-- Accumulation keeps the phony keys duplicate-free. -/
theorem addPhonyEntry_keys_nodup (ps : List (String × List String)) (name : String)
    (deps : List String) (h : (ps.map Prod.fst).Nodup) :
    ((addPhonyEntry ps name deps).map Prod.fst).Nodup := by
  rw [addPhonyEntry_keys]
  by_cases hmem : name ∈ ps.map Prod.fst
  · rw [if_pos hmem]; exact h
  · rw [if_neg hmem]
    rw [List.nodup_append]
    refine ⟨h, by simp, ?_⟩
    intro a ha hax
    simp only [List.mem_singleton] at hax
    exact hmem (hax ▸ ha)

/-- The key list stays duplicate-free across every accumulation call. -/
theorem globalPhonyCalls_keys_nodup (name : String) (depss : List (List String)) :
    ∀ (n : Ninja), ((n.phonies.map Prod.fst).Nodup) →
    (((globalPhonyCalls n name depss).phonies.map Prod.fst)).Nodup := by
  induction depss with
  | nil => intro n h; exact h
  | cons ds rest ih =>
      intro n h
      exact ih (n.add_global_phony name ds) (addPhonyEntry_keys_nodup n.phonies name ds h)

/-- C5: any sequence of `add_global_phony(name, deps_i)` calls accumulates
exactly the set union of the `deps_i` with no duplicates, materializes no
build action before `write`, and `write` emits exactly one phony action for
the name, depending on exactly that union. -/
theorem add_global_phony_materialization (n : Ninja) (name : String)
    (depss : List (List String))
    (hstart : n.phonies.find? (fun p => p.1 = name) = none)
    (hne : depss ≠ [])
    (hkeys : (n.phonies.map Prod.fst).Nodup)
    (hcache : ∀ bc ∈ n.writer.actionCache, bc.output ≠ [name])
    (hpre : n.writer.nodes.countP (isPhonyFor name) = 0) :
    (∀ d, d ∈ phonyDeps (globalPhonyCalls n name depss) name ↔ ∃ ds ∈ depss, d ∈ ds)
    ∧ (phonyDeps (globalPhonyCalls n name depss) name).Nodup
    ∧ (globalPhonyCalls n name depss).writer = n.writer
    ∧ ((globalPhonyCalls n name depss).writer.nodes.countP (isPhonyFor name) = 0)
    ∧ ((Ninja.write (globalPhonyCalls n name depss)).nodes.countP (isPhonyFor name) = 1
        ∧ ∀ b, NinjaNode.buildAction b ∈ (Ninja.write (globalPhonyCalls n name depss)).nodes →
            b.output = [name] → b.rule = "phony" →
            b.inputs = phonyDeps (globalPhonyCalls n name depss) name) := by
  have hd0 : phonyDeps n name = [] := by
    unfold phonyDeps
    rw [hstart]
  rcases globalPhonyCalls_spec n name depss with ⟨h1, h2, h3⟩
  refine ⟨?_, ?_, h2, ?_, ?_⟩
  · intro d
    rw [h1 d, hd0]
    simp
  · exact h3 (by rw [hd0]; exact List.nodup_nil)
  · rw [h2]; exact hpre
  · have hmem : (name, phonyDeps (globalPhonyCalls n name depss) name)
        ∈ (globalPhonyCalls n name depss).phonies := by
      rcases depss with _ | ⟨ds, rest⟩
      · exact absurd rfl hne
      · exact List.mem_of_find?_eq_some
          (find_stable name rest (n.add_global_phony name ds) (after_call_find n name ds))
    have hkeysN := globalPhonyCalls_keys_nodup name depss n hkeys
    have := ninja_write_materializes (globalPhonyCalls n name depss).phonies
      (globalPhonyCalls n name depss).writer name
      (phonyDeps (globalPhonyCalls n name depss) name)
      hmem hkeysN (by rw [h2]; exact hcache) (by rw [h2]; exact hpre)
    exact this

/-- Witness for C5: two overlapping contributions to one phony accumulate to
the three-element union, and write materializes exactly one phony action. -/
theorem add_global_phony_materialization_witness :
    (∀ d, d ∈ phonyDeps (globalPhonyCalls ⟨Writer.initEmpty, [], "acp"⟩ "multitree-sdk"
        [["a", "b"], ["b", "c"]]) "multitree-sdk" ↔
        ∃ ds ∈ [["a", "b"], ["b", "c"]], d ∈ ds)
    ∧ (phonyDeps (globalPhonyCalls ⟨Writer.initEmpty, [], "acp"⟩ "multitree-sdk"
        [["a", "b"], ["b", "c"]]) "multitree-sdk").Nodup
    ∧ (globalPhonyCalls ⟨Writer.initEmpty, [], "acp"⟩ "multitree-sdk"
        [["a", "b"], ["b", "c"]]).writer = Writer.initEmpty
    ∧ ((globalPhonyCalls ⟨Writer.initEmpty, [], "acp"⟩ "multitree-sdk"
        [["a", "b"], ["b", "c"]]).writer.nodes.countP (isPhonyFor "multitree-sdk") = 0)
    ∧ ((Ninja.write (globalPhonyCalls ⟨Writer.initEmpty, [], "acp"⟩ "multitree-sdk"
        [["a", "b"], ["b", "c"]])).nodes.countP (isPhonyFor "multitree-sdk") = 1
        ∧ ∀ b, NinjaNode.buildAction b ∈ (Ninja.write (globalPhonyCalls
            ⟨Writer.initEmpty, [], "acp"⟩ "multitree-sdk" [["a", "b"], ["b", "c"]])).nodes →
            b.output = ["multitree-sdk"] → b.rule = "phony" →
            b.inputs = phonyDeps (globalPhonyCalls ⟨Writer.initEmpty, [], "acp"⟩
              "multitree-sdk" [["a", "b"], ["b", "c"]]) "multitree-sdk") :=
  add_global_phony_materialization ⟨Writer.initEmpty, [], "acp"⟩ "multitree-sdk"
    [["a", "b"], ["b", "c"]] (by rfl) (by simp)
    (by simp) (by intro bc hbc; simp [Writer.initEmpty] at hbc)
    (by rfl)

/-- The read-only bind mount `_meld_git` installs for a melded subtree. -/
def meldMount (absSrc absDst : String) : MountPt :=
  { src := absSrc, dst := absDst, is_bind := some true, rw := some false,
    mandatory := some true }

/-- C7: melding precedence.  A version-controlled subtree that is present and
non-empty under the primary root is never overlaid (the config is unchanged);
a subtree the primary lacks is bind-mounted from the overlay that provides it;
and when two overlays provide the same relative path, the first overlay's
mount is kept while the second is skipped with an already-mounted diagnostic. -/
theorem meld_precedence :
    (∀ (root innerAbs : String) (abspath : String → String) (primary : String → Bool)
       (cfg : Nsjail) (shared src : String),
       primary (pyJoin2 root (strDrop src (shared.length + 1))) = true →
       pyJoin2 innerAbs (strDrop src (shared.length + 1)) ∉ cfg.mount_points →
       meldGit root innerAbs abspath primary cfg shared src = (cfg, none))
    ∧ (∀ (root innerAbs : String) (abspath : String → String) (primary : String → Bool)
       (cfg : Nsjail) (shared src : String),
       primary (pyJoin2 root (strDrop src (shared.length + 1))) = false →
       pyJoin2 innerAbs (strDrop src (shared.length + 1)) ∉ cfg.mount_points →
       meldGit root innerAbs abspath primary cfg shared src
         = (cfg.add_mountpt (meldMount (abspath src)
              (pyJoin2 innerAbs (strDrop src (shared.length + 1)))),
            some (MeldEvent.melded src (pyJoin2 root (strDrop src (shared.length + 1))))))
    ∧ (∀ (root innerAbs : String) (abspath : String → String) (primary : String → Bool)
       (cfg : Nsjail) (shared1 src1 shared2 src2 : String),
       strDrop src2 (shared2.length + 1) = strDrop src1 (shared1.length + 1) →
       primary (pyJoin2 root (strDrop src1 (shared1.length + 1))) = false →
       pyJoin2 innerAbs (strDrop src1 (shared1.length + 1)) ∉ cfg.mount_points →
       meldWalk root innerAbs abspath primary cfg [(shared1, src1), (shared2, src2)]
         = (cfg.add_mountpt (meldMount (abspath src1)
              (pyJoin2 innerAbs (strDrop src1 (shared1.length + 1)))),
            [MeldEvent.melded src1 (pyJoin2 root (strDrop src1 (shared1.length + 1))),
             MeldEvent.alreadyMounted (pyJoin2 root (strDrop src1 (shared1.length + 1)))
               src2])) := by
  have hskip : ∀ (root innerAbs : String) (abspath : String → String)
      (primary : String → Bool) (cfg : Nsjail) (shared src : String),
      primary (pyJoin2 root (strDrop src (shared.length + 1))) = true →
      pyJoin2 innerAbs (strDrop src (shared.length + 1)) ∉ cfg.mount_points →
      meldGit root innerAbs abspath primary cfg shared src = (cfg, none) := by
    intro root innerAbs abspath primary cfg shared src hprim hnm
    unfold meldGit
    rw [if_neg hnm, if_neg (by simp [hprim])]
  have hbind : ∀ (root innerAbs : String) (abspath : String → String)
      (primary : String → Bool) (cfg : Nsjail) (shared src : String),
      primary (pyJoin2 root (strDrop src (shared.length + 1))) = false →
      pyJoin2 innerAbs (strDrop src (shared.length + 1)) ∉ cfg.mount_points →
      meldGit root innerAbs abspath primary cfg shared src
        = (cfg.add_mountpt (meldMount (abspath src)
             (pyJoin2 innerAbs (strDrop src (shared.length + 1)))),
           some (MeldEvent.melded src (pyJoin2 root (strDrop src (shared.length + 1))))) := by
    intro root innerAbs abspath primary cfg shared src hprim hnm
    unfold meldGit
    rw [if_neg hnm, if_pos (by simp [hprim])]
    rfl
  refine ⟨hskip, hbind, ?_⟩
  intro root innerAbs abspath primary cfg shared1 src1 shared2 src2 hrel hprim hnm
  unfold meldWalk
  simp only [List.foldl_cons, List.foldl_nil]
  rw [hbind root innerAbs abspath primary cfg shared1 src1 hprim hnm]
  have hmem : pyJoin2 innerAbs (strDrop src2 (shared2.length + 1)) ∈
      (cfg.add_mountpt (meldMount (abspath src1)
        (pyJoin2 innerAbs (strDrop src1 (shared1.length + 1))))).mount_points := by
    rw [hrel]
    unfold Nsjail.add_mountpt Nsjail.mount_points
    simp [meldMount]
  rw [show meldGit root innerAbs abspath primary
      (cfg.add_mountpt (meldMount (abspath src1)
        (pyJoin2 innerAbs (strDrop src1 (shared1.length + 1))))) shared2 src2
      = (cfg.add_mountpt (meldMount (abspath src1)
          (pyJoin2 innerAbs (strDrop src1 (shared1.length + 1)))),
         some (MeldEvent.alreadyMounted
           (pyJoin2 root (strDrop src2 (shared2.length + 1))) src2)) by
    unfold meldGit
    rw [if_pos hmem]]
  rw [hrel]
  rfl

/-- Witness for C7 at concrete paths: a primary-present subtree is skipped, an
absent one is bound from the first overlay, and a second overlay providing the
same path is skipped. -/
theorem meld_precedence_witness :
    meldGit "tree" "/ws/tree" (fun s => "/ws/" ++ s) (fun _ => true)
        ⟨"/ws/tree", false, [], [], []⟩ "overlay1" "overlay1/p1"
      = (⟨"/ws/tree", false, [], [], []⟩, none)
    ∧ meldWalk "tree" "/ws/tree" (fun s => "/ws/" ++ s) (fun _ => false)
        ⟨"/ws/tree", false, [], [], []⟩
        [("overlay1", "overlay1/p2"), ("overlay2", "overlay2/p2")]
      = (Nsjail.add_mountpt ⟨"/ws/tree", false, [], [], []⟩
           (meldMount ("/ws/" ++ "overlay1/p2") (pyJoin2 "/ws/tree" "p2")),
         [MeldEvent.melded "overlay1/p2" (pyJoin2 "tree" "p2"),
          MeldEvent.alreadyMounted (pyJoin2 "tree" "p2") "overlay2/p2"]) := by
  constructor
  · exact meld_precedence.1 "tree" "/ws/tree" (fun s => "/ws/" ++ s) (fun _ => true)
      ⟨"/ws/tree", false, [], [], []⟩ "overlay1" "overlay1/p1" rfl
      (by simp [Nsjail.mount_points])
  · have h := meld_precedence.2.2 "tree" "/ws/tree" (fun s => "/ws/" ++ s) (fun _ => false)
      ⟨"/ws/tree", false, [], [], []⟩ "overlay1" "overlay1/p2" "overlay2" "overlay2/p2"
      (by decide) rfl (by simp [Nsjail.mount_points])
    rw [h]
    rw [show strDrop "overlay1/p2" ("overlay1".length + 1) = "p2" from by decide]

/-- A stub-library list exposes a grouping key. -/
def hasGroup (sls : List StubLibrary) (k : GroupKey) : Prop :=
  ∃ sl ∈ sls, sl.groupKey = k

/-- A contribution appears under a grouping key in a stub-library list. -/
def memGroup (sls : List StubLibrary) (k : GroupKey) (e : StubLibraryContribution) : Prop :=
  ∃ sl ∈ sls, sl.groupKey = k ∧ e ∈ sl.contributions

/-- Key presence in the grouping dict. -/
def keyG (g : List (GroupKey × StubLibrary)) (k : GroupKey) : Prop :=
  ∃ p ∈ g, p.1 = k

/-- Contribution membership in the grouping dict. -/
def memG (g : List (GroupKey × StubLibrary)) (k : GroupKey)
    (e : StubLibraryContribution) : Prop :=
  ∃ p ∈ g, p.1 = k ∧ e ∈ p.2.contributions

/-- Every dict entry's stub library carries its own key (invariant of
`collate_contributions`). -/
def WFG (g : List (GroupKey × StubLibrary)) : Prop :=
  ∀ p ∈ g, p.2.groupKey = p.1

theorem addEntry_WFG (g : List (GroupKey × StubLibrary)) (k : GroupKey)
    (e : StubLibraryContribution) (h : WFG g) : WFG (addEntry g k e) := by
  induction g with
  | nil =>
      intro p hp
      simp only [addEntry] at hp
      simp at hp
      subst hp
      simp [StubLibrary.groupKey]
  | cons q rest ih =>
      intro p hp
      unfold addEntry at hp
      by_cases hq : q.1 = k
      · rw [if_pos hq] at hp
        rcases List.mem_cons.mp hp with rfl | hrest
        · have := h q (by simp)
          simpa [StubLibrary.groupKey] using this
        · exact h p (by simp [hrest])
      · rw [if_neg hq] at hp
        rcases List.mem_cons.mp hp with rfl | hrest
        · exact h p (by simp)
        · exact ih (fun p' hp' => h p' (by simp [hp'])) p hrest

theorem addEntry_keyG (g : List (GroupKey × StubLibrary)) (k : GroupKey)
    (e : StubLibraryContribution) (k' : GroupKey) :
    keyG (addEntry g k e) k' ↔ keyG g k' ∨ k' = k := by
  induction g with
  | nil =>
      simp only [addEntry, keyG]
      constructor
      · rintro ⟨p, hp, hk⟩
        simp at hp
        subst hp
        exact Or.inr hk.symm
      · rintro (⟨p, hp, _⟩ | hkk)
        · simp at hp
        · exact ⟨(k, mkStubLib k [e]), by simp [mkStubLib], hkk.symm⟩
  | cons q rest ih =>
      unfold addEntry
      by_cases hq : q.1 = k
      · rw [if_pos hq]
        simp only [keyG]
        constructor
        · rintro ⟨p, hp, hk⟩
          rcases List.mem_cons.mp hp with rfl | hrest
          · exact Or.inl ⟨q, by simp, hk⟩
          · exact Or.inl ⟨p, by simp [hrest], hk⟩
        · rintro (⟨p, hp, hk⟩ | rfl)
          · rcases List.mem_cons.mp hp with rfl | hrest
            · exact ⟨(p.1, { p.2 with contributions := p.2.contributions ++ [e] }),
                by simp, hk⟩
            · exact ⟨p, by simp [hrest], hk⟩
          · exact ⟨(q.1, { q.2 with contributions := q.2.contributions ++ [e] }),
              by simp, hq⟩
      · rw [if_neg hq]
        simp only [keyG] at ih ⊢
        constructor
        · rintro ⟨p, hp, hk⟩
          rcases List.mem_cons.mp hp with rfl | hrest
          · exact Or.inl ⟨p, by simp, hk⟩
          · rcases ih.mp ⟨p, hrest, hk⟩ with ⟨p', hp', hk'⟩ | h
            · exact Or.inl ⟨p', by simp [hp'], hk'⟩
            · exact Or.inr h
        · rintro (⟨p, hp, hk⟩ | rfl)
          · rcases List.mem_cons.mp hp with rfl | hrest
            · exact ⟨p, by simp, hk⟩
            · rcases ih.mpr (Or.inl ⟨p, hrest, hk⟩) with ⟨p', hp', hk'⟩
              exact ⟨p', by simp [hp'], hk'⟩
          · rcases ih.mpr (Or.inr rfl) with ⟨p', hp', hk'⟩
            exact ⟨p', by simp [hp'], hk'⟩

theorem addEntry_memG (g : List (GroupKey × StubLibrary)) (k : GroupKey)
    (e : StubLibraryContribution) (k' : GroupKey) (e' : StubLibraryContribution) :
    memG (addEntry g k e) k' e' ↔ memG g k' e' ∨ (k' = k ∧ e' = e) := by
  induction g with
  | nil =>
      simp only [addEntry, memG]
      constructor
      · rintro ⟨p, hp, hk, he⟩
        simp at hp
        subst hp
        simp at he
        exact Or.inr ⟨hk.symm, he⟩
      · rintro (⟨p, hp, _⟩ | ⟨hkk, hee⟩)
        · simp at hp
        · exact ⟨(k, mkStubLib k [e]), by simp [mkStubLib], hkk.symm, by simp [mkStubLib, hee]⟩
  | cons q rest ih =>
      unfold addEntry
      by_cases hq : q.1 = k
      · rw [if_pos hq]
        simp only [memG]
        constructor
        · rintro ⟨p, hp, hk, he⟩
          rcases List.mem_cons.mp hp with rfl | hrest
          · simp only [List.mem_append, List.mem_singleton] at he
            rcases he with he | hee
            · exact Or.inl ⟨q, by simp, hk, he⟩
            · exact Or.inr ⟨hk.symm.trans hq, hee⟩
          · exact Or.inl ⟨p, by simp [hrest], hk, he⟩
        · rintro (⟨p, hp, hk, he⟩ | ⟨hkk, hee⟩)
          · rcases List.mem_cons.mp hp with rfl | hrest
            · exact ⟨(p.1, { p.2 with contributions := p.2.contributions ++ [e] }),
                by simp, hk, by simp [he]⟩
            · exact ⟨p, by simp [hrest], hk, he⟩
          · exact ⟨(q.1, { q.2 with contributions := q.2.contributions ++ [e] }),
              by simp, hq.trans hkk.symm, by simp [hee]⟩
      · rw [if_neg hq]
        simp only [memG] at ih ⊢
        constructor
        · rintro ⟨p, hp, hk, he⟩
          rcases List.mem_cons.mp hp with rfl | hrest
          · exact Or.inl ⟨p, by simp, hk, he⟩
          · rcases ih.mp ⟨p, hrest, hk, he⟩ with ⟨p', hp', hk', he'⟩ | h
            · exact Or.inl ⟨p', by simp [hp'], hk', he'⟩
            · exact Or.inr h
        · rintro (⟨p, hp, hk, he⟩ | h)
          · rcases List.mem_cons.mp hp with rfl | hrest
            · exact ⟨p, by simp, hk, he⟩
            · rcases ih.mpr (Or.inl ⟨p, hrest, hk, he⟩) with ⟨p', hp', hk', he'⟩
              exact ⟨p', by simp [hp'], hk', he'⟩
          · rcases ih.mpr (Or.inr h) with ⟨p', hp', hk', he'⟩
            exact ⟨p', by simp [hp'], hk', he'⟩

/-- The grouping fold over an entry list, characterized extensionally. -/
theorem foldl_addEntry_memG (es : List (GroupKey × StubLibraryContribution)) :
    ∀ (g : List (GroupKey × StubLibrary)) (k : GroupKey) (e : StubLibraryContribution),
    memG (es.foldl (fun g ke => addEntry g ke.1 ke.2) g) k e ↔ memG g k e ∨ (k, e) ∈ es := by
  induction es with
  | nil => intro g k e; simp
  | cons ke rest ih =>
      intro g k e
      simp only [List.foldl_cons]
      rw [ih, addEntry_memG]
      constructor
      · rintro ((h | ⟨rfl, rfl⟩) | h)
        · exact Or.inl h
        · exact Or.inr (by simp)
        · exact Or.inr (by simp [h])
      · rintro (h | h)
        · exact Or.inl (Or.inl h)
        · rcases List.mem_cons.mp h with heq | hrest
          · exact Or.inl (Or.inr (by
              have h1 := congrArg Prod.fst heq
              have h2 := congrArg Prod.snd heq
              exact ⟨h1, h2⟩))
          · exact Or.inr hrest

theorem foldl_addEntry_keyG (es : List (GroupKey × StubLibraryContribution)) :
    ∀ (g : List (GroupKey × StubLibrary)) (k : GroupKey),
    keyG (es.foldl (fun g ke => addEntry g ke.1 ke.2) g) k ↔
      keyG g k ∨ ∃ e, (k, e) ∈ es := by
  induction es with
  | nil => intro g k; simp
  | cons ke rest ih =>
      intro g k
      simp only [List.foldl_cons]
      rw [ih, addEntry_keyG]
      constructor
      · rintro ((h | rfl) | ⟨e, he⟩)
        · exact Or.inl h
        · exact Or.inr ⟨ke.2, by simp⟩
        · exact Or.inr ⟨e, by simp [he]⟩
      · rintro (h | ⟨e, he⟩)
        · exact Or.inl (Or.inl h)
        · rcases List.mem_cons.mp he with heq | hrest
          · exact Or.inl (Or.inr (congrArg Prod.fst heq))
          · exact Or.inr ⟨e, hrest⟩

theorem foldl_addEntry_WFG (es : List (GroupKey × StubLibraryContribution)) :
    ∀ (g : List (GroupKey × StubLibrary)), WFG g →
    WFG (es.foldl (fun g ke => addEntry g ke.1 ke.2) g) := by
  induction es with
  | nil => intro g h; exact h
  | cons ke rest ih =>
      intro g h
      simp only [List.foldl_cons]
      exact ih _ (addEntry_WFG g ke.1 ke.2 h)

/-- With the key invariant, the values list exposes exactly the dict's keys. -/
theorem hasGroup_iff_keyG (g : List (GroupKey × StubLibrary)) (hwf : WFG g)
    (k : GroupKey) : hasGroup (g.map (fun p => p.2)) k ↔ keyG g k := by
  constructor
  · rintro ⟨sl, hsl, hk⟩
    rcases List.mem_map.mp hsl with ⟨p, hp, rfl⟩
    exact ⟨p, hp, (hwf p hp) ▸ hk⟩
  · rintro ⟨p, hp, hk⟩
    exact ⟨p.2, List.mem_map.mpr ⟨p, hp, rfl⟩, (hwf p hp).trans hk⟩

/-- With the key invariant, group membership in the values list matches the
dict. -/
theorem memGroup_iff_memG (g : List (GroupKey × StubLibrary)) (hwf : WFG g)
    (k : GroupKey) (e : StubLibraryContribution) :
    memGroup (g.map (fun p => p.2)) k e ↔ memG g k e := by
  constructor
  · rintro ⟨sl, hsl, hk, he⟩
    rcases List.mem_map.mp hsl with ⟨p, hp, rfl⟩
    exact ⟨p, hp, (hwf p hp) ▸ hk, he⟩
  · rintro ⟨p, hp, hk, he⟩
    exact ⟨p.2, List.mem_map.mpr ⟨p, hp, rfl⟩, (hwf p hp).trans hk, he⟩

/-- Extensional characterization of `collate_contributions`: a key is grouped
iff some input contribution generates it. -/
theorem collate_hasGroup_char (cs : List ContributionData) (k : GroupKey) :
    hasGroup (collate_contributions cs) k ↔ ∃ c ∈ cs, ∃ x, (k, x) ∈ entriesOf c := by
  unfold collate_contributions
  rw [hasGroup_iff_keyG _ (foldl_addEntry_WFG _ [] (by intro p hp; simp at hp)),
      foldl_addEntry_keyG]
  simp only [keyG]
  constructor
  · rintro (⟨p, hp, _⟩ | ⟨x, hx⟩)
    · simp at hp
    · rcases List.mem_flatMap.mp hx with ⟨c, hc, hin⟩
      exact ⟨c, hc, x, hin⟩
  · rintro ⟨c, hc, x, hin⟩
    exact Or.inr ⟨x, List.mem_flatMap.mpr ⟨c, hc, hin⟩⟩

/-- Extensional characterization of `collate_contributions`: a contribution
record belongs to a group iff some input contribution generates that
(key, record) pair. -/
theorem collate_memGroup_char (cs : List ContributionData) (k : GroupKey)
    (e : StubLibraryContribution) :
    memGroup (collate_contributions cs) k e ↔ ∃ c ∈ cs, (k, e) ∈ entriesOf c := by
  unfold collate_contributions
  rw [memGroup_iff_memG _ (foldl_addEntry_WFG _ [] (by intro p hp; simp at hp)),
      foldl_addEntry_memG]
  simp only [memG]
  constructor
  · rintro (⟨p, hp, _⟩ | hx)
    · simp at hp
    · rcases List.mem_flatMap.mp hx with ⟨c, hc, hin⟩
      exact ⟨c, hc, hin⟩
  · rintro ⟨c, hc, hin⟩
    exact Or.inr (List.mem_flatMap.mpr ⟨c, hc, hin⟩)

/-- C3: `collate_contributions` is order-independent — for any permutation of
the parsed contribution list, the same set of (language, surface, version,
library) grouping keys is produced, and every group holds the same set of
contribution records. -/
theorem collate_contributions_order_independent (cs1 cs2 : List ContributionData)
    (hperm : cs1.Perm cs2) :
    (∀ k, hasGroup (collate_contributions cs1) k ↔ hasGroup (collate_contributions cs2) k)
    ∧ (∀ k e, memGroup (collate_contributions cs1) k e ↔
        memGroup (collate_contributions cs2) k e) := by
  constructor
  · intro k
    rw [collate_hasGroup_char cs1 k, collate_hasGroup_char cs2 k]
    constructor
    · rintro ⟨c, hc, x, hx⟩
      exact ⟨c, hperm.mem_iff.mp hc, x, hx⟩
    · rintro ⟨c, hc, x, hx⟩
      exact ⟨c, hperm.mem_iff.mpr hc, x, hx⟩
  · intro k e
    rw [collate_memGroup_char cs1 k e, collate_memGroup_char cs2 k e]
    constructor
    · rintro ⟨c, hc, hx⟩
      exact ⟨c, hperm.mem_iff.mp hc, hx⟩
    · rintro ⟨c, hc, hx⟩
      exact ⟨c, hperm.mem_iff.mpr hc, hx⟩

/-- A first concrete contribution for the C3 witness. -/
def wContrib1 : ContributionData :=
  ⟨"tree1", { name := "publicapi", version := 1, api_domain := "system",
              cc_libraries := [⟨"libfoo", "libfoo.map.txt", []⟩],
              java_libraries := [], resource_libraries := [] }⟩

/-- A second concrete contribution for the C3 witness. -/
def wContrib2 : ContributionData :=
  ⟨"tree2", { name := "publicapi", version := 1, api_domain := "vendor",
              cc_libraries := [⟨"libfoo", "libfoo2.map.txt", []⟩],
              java_libraries := [], resource_libraries := [] }⟩

/-- Witness for C3: swapping two concrete descriptors leaves the `libfoo`
grouping and its contribution set unchanged. -/
theorem collate_contributions_order_independent_witness :
    (hasGroup (collate_contributions [wContrib1, wContrib2])
        ("cc_libraries", "publicapi", 1, "libfoo")
      ↔ hasGroup (collate_contributions [wContrib2, wContrib1])
        ("cc_libraries", "publicapi", 1, "libfoo"))
    ∧ (memGroup (collate_contributions [wContrib1, wContrib2])
        ("cc_libraries", "publicapi", 1, "libfoo")
        ⟨"tree2", "vendor", ⟨"libfoo", "libfoo2.map.txt", []⟩⟩
      ↔ memGroup (collate_contributions [wContrib2, wContrib1])
        ("cc_libraries", "publicapi", 1, "libfoo")
        ⟨"tree2", "vendor", ⟨"libfoo", "libfoo2.map.txt", []⟩⟩) :=
  ⟨(collate_contributions_order_independent [wContrib1, wContrib2] [wContrib2, wContrib1]
      (List.Perm.swap wContrib2 wContrib1 [])).1 ("cc_libraries", "publicapi", 1, "libfoo"),
   (collate_contributions_order_independent [wContrib1, wContrib2] [wContrib2, wContrib1]
      (List.Perm.swap wContrib2 wContrib1 [])).2 ("cc_libraries", "publicapi", 1, "libfoo")
      ⟨"tree2", "vendor", ⟨"libfoo", "libfoo2.map.txt", []⟩⟩⟩

/-! ## C8 machinery: the emitted graph contains the fan-out's actions. -/

/-- A fold preserves an invariant preserved by each step. -/
theorem foldl_inv {σ α : Type} (step : σ → α → σ) (Q : σ → Prop)
    (hQ : ∀ s a, Q s → Q (step s a)) :
    ∀ (l : List α) (s : σ), Q s → Q (l.foldl step s) := by
  intro l
  induction l with
  | nil => intro s h; exact h
  | cons a rest ih => intro s h; exact ih (step s a) (hQ s a h)

/-- A per-element property established by each step under an invariant, and
preserved afterwards, holds of the fold for every list element. -/
theorem foldl_each {σ α : Type} (step : σ → α → σ) (Q : σ → Prop) (P : α → σ → Prop)
    (hQ : ∀ s a, Q s → Q (step s a))
    (hmono : ∀ s a b, Q s → P b s → P b (step s a))
    (hest : ∀ s a, Q s → P a (step s a)) :
    ∀ (l : List α) (s : σ), Q s → ∀ a ∈ l, P a (l.foldl step s) := by
  intro l
  induction l with
  | nil => intro s _ a ha; simp at ha
  | cons a0 rest ih =>
      intro s hs a ha
      simp only [List.foldl_cons]
      rcases List.mem_cons.mp ha with rfl | hmem
      · exact (foldl_inv step (fun s' => Q s' ∧ P a s')
          (fun s' a' h => ⟨hQ s' a' h.1, hmono s' a' a h.1 h.2⟩) rest (step s a)
          ⟨hQ s a hs, hest s a hs⟩).2
      · exact ih (step s a0) (hQ s a0 hs) a hmem

/-- The node list only grows across writer operations. -/
theorem mem_nodes_add_variable (w : Writer) (v : NVariable) (nd : NinjaNode)
    (h : nd ∈ w.nodes) : nd ∈ (w.add_variable v).nodes := by
  unfold Writer.add_variable
  simp [h]

theorem mem_nodes_add_rule (w : Writer) (r : Rule) (nd : NinjaNode)
    (h : nd ∈ w.nodes) : nd ∈ (w.add_rule r).nodes := by
  unfold Writer.add_rule
  by_cases hc : w.ruleCache.any (fun r' => r'.key = r.key)
  · rw [if_pos hc]; exact h
  · rw [if_neg hc]; simp [h]

theorem mem_nodes_add_build_action (w : Writer) (b : BuildAction) (nd : NinjaNode)
    (h : nd ∈ w.nodes) : nd ∈ (w.add_build_action b).nodes := by
  unfold Writer.add_build_action
  by_cases hc : w.actionCache.any (fun b' => b'.key = b.key)
  · rw [if_pos hc]; exact h
  · rw [if_neg hc]; simp [h]

/-- Every cached build action has a key-equal node in the node list. -/
def GoodWriter (w : Writer) : Prop :=
  ∀ b ∈ w.actionCache, ∃ b', NinjaNode.buildAction b' ∈ w.nodes ∧ b'.key = b.key

/-- A key-equal build action is present among the writer's nodes. -/
def writerHasAction (w : Writer) (b : BuildAction) : Prop :=
  ∃ b', NinjaNode.buildAction b' ∈ w.nodes ∧ b'.key = b.key

theorem good_add_variable (w : Writer) (v : NVariable) (h : GoodWriter w) :
    GoodWriter (w.add_variable v) := by
  intro b hb
  rcases h b hb with ⟨b', hmem, hkey⟩
  exact ⟨b', mem_nodes_add_variable w v _ hmem, hkey⟩

theorem good_add_rule (w : Writer) (r : Rule) (h : GoodWriter w) :
    GoodWriter (w.add_rule r) := by
  intro b hb
  have hb' : b ∈ w.actionCache := by
    unfold Writer.add_rule at hb
    by_cases hc : w.ruleCache.any (fun r' => r'.key = r.key)
    · rwa [if_pos hc] at hb
    · rwa [if_neg hc] at hb
  rcases h b hb' with ⟨b', hmem, hkey⟩
  exact ⟨b', mem_nodes_add_rule w r _ hmem, hkey⟩

theorem good_add_build_action (w : Writer) (b0 : BuildAction) (h : GoodWriter w) :
    GoodWriter (w.add_build_action b0) := by
  intro b hb
  unfold Writer.add_build_action at hb ⊢
  by_cases hc : w.actionCache.any (fun b' => b'.key = b0.key)
  · rw [if_pos hc] at hb ⊢
    exact h b hb
  · rw [if_neg hc] at hb ⊢
    simp only [List.mem_append] at hb
    rcases hb with hb | hb
    · rcases h b hb with ⟨b', hmem, hkey⟩
      exact ⟨b', by simp [hmem], hkey⟩
    · simp at hb
      subst hb
      exact ⟨b, by simp, rfl⟩

theorem has_add_build_action (w : Writer) (b : BuildAction) (h : GoodWriter w) :
    writerHasAction (w.add_build_action b) b := by
  unfold Writer.add_build_action
  by_cases hc : w.actionCache.any (fun b' => b'.key = b.key)
  · rw [if_pos hc]
    rcases List.any_eq_true.mp hc with ⟨bc, hbc, hkey⟩
    rcases h bc hbc with ⟨b', hmem, hkey'⟩
    exact ⟨b', hmem, hkey'.trans (of_decide_eq_true hkey)⟩
  · rw [if_neg hc]
    exact ⟨b, by simp, rfl⟩

theorem has_mono_add_variable (w : Writer) (v : NVariable) (b : BuildAction)
    (h : writerHasAction w b) : writerHasAction (w.add_variable v) b := by
  rcases h with ⟨b', hmem, hkey⟩
  exact ⟨b', mem_nodes_add_variable w v _ hmem, hkey⟩

theorem has_mono_add_rule (w : Writer) (r : Rule) (b : BuildAction)
    (h : writerHasAction w b) : writerHasAction (w.add_rule r) b := by
  rcases h with ⟨b', hmem, hkey⟩
  exact ⟨b', mem_nodes_add_rule w r _ hmem, hkey⟩

theorem has_mono_add_build_action (w : Writer) (b0 b : BuildAction)
    (h : writerHasAction w b) : writerHasAction (w.add_build_action b0) b := by
  rcases h with ⟨b', hmem, hkey⟩
  exact ⟨b', mem_nodes_add_build_action w b0 _ hmem, hkey⟩

/-- Ninja-level: `add_copy_file` preserves the cache invariant. -/
theorem good_add_copy_file (nj : Ninja) (a b : String) (h : GoodWriter nj.writer) :
    GoodWriter (nj.add_copy_file a b).writer := by
  unfold Ninja.add_copy_file
  exact good_add_build_action _ _ (good_add_rule _ _ h)

theorem has_mono_add_copy_file (nj : Ninja) (a b : String) (b0 : BuildAction)
    (h : writerHasAction nj.writer b0) : writerHasAction (nj.add_copy_file a b).writer b0 := by
  unfold Ninja.add_copy_file
  exact has_mono_add_build_action _ _ _ (has_mono_add_rule _ _ _ h)

/-- Ninja-level: `add_write_file` preserves the cache invariant. -/
theorem good_add_write_file (nj : Ninja) (f c : String) (h : GoodWriter nj.writer) :
    GoodWriter (nj.add_write_file f c).writer := by
  unfold Ninja.add_write_file
  exact good_add_build_action _ _ (good_add_rule _ _ h)

theorem has_mono_add_write_file (nj : Ninja) (f c : String) (b0 : BuildAction)
    (h : writerHasAction nj.writer b0) : writerHasAction (nj.add_write_file f c).writer b0 := by
  unfold Ninja.add_write_file
  exact has_mono_add_build_action _ _ _ (has_mono_add_rule _ _ _ h)

/-- `add_stubgen_action` preserves the cache invariant, preserves action
presence, and emits its own action. -/
theorem stubgen_action_spec (cctx : CcAssemblyCtx) (nj : Ninja)
    (input : GenCcStubsInput) (work : String) (h : GoodWriter nj.writer) :
    GoodWriter (add_stubgen_action cctx nj input work).2.writer
    ∧ writerHasAction (add_stubgen_action cctx nj input work).2.writer
        (stubActionOf input work)
    ∧ ∀ b0, writerHasAction nj.writer b0 →
        writerHasAction (add_stubgen_action cctx nj input work).2.writer b0 := by
  unfold add_stubgen_action
  cases hr : cctx.stubgenRule with
  | some r =>
      simp only [hr]
      exact ⟨good_add_build_action _ _ h, has_add_build_action _ _ h,
        fun b0 hb0 => has_mono_add_build_action _ _ _ hb0⟩
  | none =>
      simp only [hr]
      have h1 : GoodWriter ((nj.writer.add_variable
          ⟨"ndkstubgen", NDKSTUBGEN, 0⟩).add_rule genCcStubsRule) :=
        good_add_rule _ _ (good_add_variable _ _ h)
      exact ⟨good_add_build_action _ _ h1, has_add_build_action _ _ h1,
        fun b0 hb0 => has_mono_add_build_action _ _ _
          (has_mono_add_rule _ _ _ (has_mono_add_variable _ _ _ hb0))⟩

/-- The staged files one contribution appends to `api_deps`: each header file
under its header set's include directory with the root stripped, then the
staged ABI description file. -/
def contribDeps (outRoot surface versionStr libName : String)
    (c : StubLibraryContribution) : List String :=
  (c.library_contribution.headers.flatMap (fun hs =>
    hs.headers.map (fun file =>
      pyJoin2 (pyJoin2 (api_library_dir outRoot surface versionStr libName) hs.name)
        (relPath file hs.root))))
  ++ [pyJoin2 (api_library_dir outRoot surface versionStr libName)
        (baseName c.library_contribution.api)]

/-- All staged dependencies of one stub library's phony target. -/
def ccApiDeps (outRoot surface versionStr libName : String)
    (cs : List StubLibraryContribution) : List String :=
  cs.flatMap (contribDeps outRoot surface versionStr libName)

/-- The stubgen action emitted for one contribution and architecture of a
given surface/version/library. -/
def ccStubAction (outRoot surface versionStr libName : String)
    (c : StubLibraryContribution) (arch : String) : BuildAction :=
  stubActionOf
    { arch := arch, version := versionStr,
      version_map := api_levels_file outRoot,
      api := pyJoin2 (api_library_dir outRoot surface versionStr libName)
        (baseName c.library_contribution.api),
      additional_args := additional_ndkstubgen_args surface }
    (api_library_work_dir outRoot surface versionStr libName)

/-- Staging one header file appends exactly one dependency. -/
theorem stageHeaderFile_api_deps (staging incName incRoot treeRoot : String)
    (st : CcAssemblyState) (file : String) :
    (stageHeaderFile staging incName incRoot treeRoot st file).api_deps
      = st.api_deps ++ [pyJoin2 (pyJoin2 staging incName) (relPath file incRoot)] := rfl

/-- Staging one header set appends its mapped header files. -/
theorem stageHeaderSet_api_deps (staging treeRoot : String) (hs : HeaderSet) :
    ∀ (st : CcAssemblyState),
    (stageHeaderSet staging treeRoot st hs).api_deps
      = st.api_deps ++ hs.headers.map (fun file =>
          pyJoin2 (pyJoin2 staging hs.name) (relPath file hs.root)) := by
  unfold stageHeaderSet
  generalize hs.headers = files
  induction files with
  | nil => intro st; simp
  | cons f rest ih =>
      intro st
      simp only [List.foldl_cons]
      rw [ih]
      rw [stageHeaderFile_api_deps]
      simp

/-- The stubgen loop leaves `api_deps` unchanged. -/
theorem stageStubArch_fold_api_deps (versionStr apiMapFile apiOut extra workDir : String)
    (l : List String) : ∀ (st : CcAssemblyState),
    (l.foldl (stageStubArch versionStr apiMapFile apiOut extra workDir) st).api_deps
      = st.api_deps := by
  induction l with
  | nil => intro st; rfl
  | cons a rest ih =>
      intro st
      simp only [List.foldl_cons]
      rw [ih]
      rfl

/-- The header-set loop appends the flattened header file list. -/
theorem stageHeaderSet_fold_api_deps (staging treeRoot : String) (hss : List HeaderSet) :
    ∀ (st : CcAssemblyState),
    (hss.foldl (stageHeaderSet staging treeRoot) st).api_deps
      = st.api_deps ++ hss.flatMap (fun hs =>
          hs.headers.map (fun file =>
            pyJoin2 (pyJoin2 staging hs.name) (relPath file hs.root))) := by
  induction hss with
  | nil => intro st; simp
  | cons hs rest ih =>
      intro st
      simp only [List.foldl_cons]
      rw [ih, stageHeaderSet_api_deps]
      simp [List.append_assoc]

/-- `assembleContribution` appends exactly its contribution's staged files to
`api_deps`. -/
theorem assembleContribution_api_deps (outRoot surface versionStr libName : String)
    (st : CcAssemblyState) (c : StubLibraryContribution) :
    (assembleContribution outRoot surface versionStr libName st c).api_deps
      = st.api_deps ++ contribDeps outRoot surface versionStr libName c := by
  unfold assembleContribution contribDeps
  rw [stageStubArch_fold_api_deps]
  simp only [stageHeaderSet_fold_api_deps]
  simp [List.append_assoc]

/-- The contribution loop appends all contributions' staged files. -/
theorem assembleContribution_fold_api_deps (outRoot surface versionStr libName : String)
    (cs : List StubLibraryContribution) : ∀ (st : CcAssemblyState),
    (cs.foldl (assembleContribution outRoot surface versionStr libName) st).api_deps
      = st.api_deps ++ ccApiDeps outRoot surface versionStr libName cs := by
  induction cs with
  | nil => intro st; simp [ccApiDeps]
  | cons c rest ih =>
      intro st
      simp only [List.foldl_cons]
      rw [ih, assembleContribution_api_deps]
      simp [ccApiDeps, List.append_assoc]

/-- The assembly state's writer keeps the cache invariant. -/
def stGood (st : CcAssemblyState) : Prop := GoodWriter st.ninja.writer

/-- The assembly state's writer holds a key-equal build action. -/
def stHas (b : BuildAction) (st : CcAssemblyState) : Prop :=
  writerHasAction st.ninja.writer b

theorem stageHeaderFile_good (staging incName incRoot treeRoot : String)
    (st : CcAssemblyState) (file : String) (h : stGood st) :
    stGood (stageHeaderFile staging incName incRoot treeRoot st file) :=
  good_add_copy_file _ _ _ h

theorem stageHeaderFile_mono (staging incName incRoot treeRoot : String)
    (st : CcAssemblyState) (file : String) (b : BuildAction) (h : stHas b st) :
    stHas b (stageHeaderFile staging incName incRoot treeRoot st file) :=
  has_mono_add_copy_file _ _ _ _ h

theorem stageHeaderSet_good (staging treeRoot : String) (st : CcAssemblyState)
    (hs : HeaderSet) (h : stGood st) : stGood (stageHeaderSet staging treeRoot st hs) :=
  foldl_inv _ stGood (fun s a => stageHeaderFile_good staging hs.name hs.root treeRoot s a)
    hs.headers st h

theorem stageHeaderSet_mono (staging treeRoot : String) (st : CcAssemblyState)
    (hs : HeaderSet) (b : BuildAction) (h : stHas b st) :
    stHas b (stageHeaderSet staging treeRoot st hs) :=
  foldl_inv _ (stHas b) (fun s a => stageHeaderFile_mono staging hs.name hs.root treeRoot s a b)
    hs.headers st h

theorem stageStubArch_good (versionStr apiMapFile apiOut extra workDir : String)
    (st : CcAssemblyState) (arch : String) (h : stGood st) :
    stGood (stageStubArch versionStr apiMapFile apiOut extra workDir st arch) :=
  (stubgen_action_spec st.cctx st.ninja _ workDir h).1

theorem stageStubArch_mono (versionStr apiMapFile apiOut extra workDir : String)
    (st : CcAssemblyState) (arch : String) (b : BuildAction) (h : stHas b st)
    (hg : stGood st) :
    stHas b (stageStubArch versionStr apiMapFile apiOut extra workDir st arch) :=
  (stubgen_action_spec st.cctx st.ninja _ workDir hg).2.2 b h

theorem stageStubArch_est (versionStr apiMapFile apiOut extra workDir : String)
    (st : CcAssemblyState) (arch : String) (hg : stGood st) :
    stHas (stubActionOf
      { arch := arch, version := versionStr, version_map := apiMapFile,
        api := apiOut, additional_args := extra } workDir)
      (stageStubArch versionStr apiMapFile apiOut extra workDir st arch) :=
  (stubgen_action_spec st.cctx st.ninja _ workDir hg).2.1

/-- `assembleContribution` preserves the cache invariant, preserves action
presence, and emits one stubgen action per architecture. -/
theorem assembleContribution_spec (outRoot surface versionStr libName : String)
    (st : CcAssemblyState) (c : StubLibraryContribution) (hg : stGood st) :
    stGood (assembleContribution outRoot surface versionStr libName st c)
    ∧ (∀ b, stHas b st → stHas b (assembleContribution outRoot surface versionStr libName st c))
    ∧ (∀ arch ∈ ARCHES,
        stHas (ccStubAction outRoot surface versionStr libName c arch)
          (assembleContribution outRoot surface versionStr libName st c)) := by
  unfold assembleContribution
  set staging := api_library_dir outRoot surface versionStr libName with hstaging
  set work_dir := api_library_work_dir outRoot surface versionStr libName with hwork
  set st1 := c.library_contribution.headers.foldl
    (stageHeaderSet staging c.inner_tree_root) st with hst1
  have hg1 : stGood st1 :=
    foldl_inv _ stGood (fun s a h => stageHeaderSet_good staging c.inner_tree_root s a h)
      c.library_contribution.headers st hg
  set api_out := pyJoin2 staging (baseName c.library_contribution.api) with hapi
  set st2 : CcAssemblyState := { st1 with
    ninja := st1.ninja.add_copy_file api_out (pyJoin2 c.inner_tree_root c.library_contribution.api),
    api_deps := st1.api_deps ++ [api_out] } with hst2
  have hg2 : stGood st2 := good_add_copy_file _ _ _ hg1
  set extra := additional_ndkstubgen_args surface with hextra
  have hQ : ∀ s a, stGood s →
      stGood (stageStubArch versionStr (api_levels_file outRoot) api_out extra work_dir s a) :=
    fun s a h => stageStubArch_good _ _ _ _ _ s a h
  refine ⟨?_, ?_, ?_⟩
  · exact foldl_inv _ stGood hQ ARCHES st2 hg2
  · intro b hb
    have hb1 : stHas b st1 :=
      foldl_inv _ (stHas b) (fun s a h => stageHeaderSet_mono staging c.inner_tree_root s a b h)
        c.library_contribution.headers st hb
    have hb2 : stHas b st2 := has_mono_add_copy_file _ _ _ _ hb1
    exact foldl_inv _ (fun s => stGood s ∧ stHas b s)
      (fun s a h => ⟨hQ s a h.1, stageStubArch_mono _ _ _ _ _ s a b h.2 h.1⟩)
      ARCHES st2 ⟨hg2, hb2⟩ |>.2
  · intro arch harch
    exact foldl_each _ stGood
      (fun a s => stHas (ccStubAction outRoot surface versionStr libName c a) s)
      hQ
      (fun s a b hq h => stageStubArch_mono _ _ _ _ _ s a _ h hq)
      (fun s a h => stageStubArch_est _ _ _ _ _ s a h)
      ARCHES st2 hg2 arch harch

/-- The finishing stage keeps the cache invariant, preserves emitted actions,
and emits the per-library phony depending on the accumulated `api_deps`. -/
theorem finishCcLibrary_spec (outRoot surface versionStr libName : String)
    (st : CcAssemblyState) (hg : stGood st) :
    GoodWriter (finishCcLibrary outRoot surface versionStr libName st).2.writer
    ∧ (∀ b, stHas b st →
        writerHasAction (finishCcLibrary outRoot surface versionStr libName st).2.writer b)
    ∧ writerHasAction (finishCcLibrary outRoot surface versionStr libName st).2.writer
        (phonyActionFor (String.intercalate "-" [surface, versionStr, libName])
          st.api_deps) := by
  have hgl : GoodWriter
      (if st.cctx.apiLevelsAdded then st.ninja else add_api_levels_file outRoot st.ninja).writer := by
    cases hAL : st.cctx.apiLevelsAdded with
    | true => simpa [hAL] using hg
    | false =>
        simp only [hAL, Bool.false_eq_true, if_false]
        unfold add_api_levels_file
        exact good_add_write_file _ _ _ hg
  have hml : ∀ b, stHas b st → writerHasAction
      (if st.cctx.apiLevelsAdded then st.ninja else add_api_levels_file outRoot st.ninja).writer b := by
    intro b hb
    cases hAL : st.cctx.apiLevelsAdded with
    | true => simpa [hAL] using hb
    | false =>
        simp only [hAL, Bool.false_eq_true, if_false]
        unfold add_api_levels_file
        exact has_mono_add_write_file _ _ _ _ hb
  refine ⟨?_, ?_, ?_⟩
  · show GoodWriter
      ((if st.cctx.apiLevelsAdded then st.ninja
        else add_api_levels_file outRoot st.ninja).writer.add_build_action
          (phonyActionFor (String.intercalate "-" [surface, versionStr, libName]) st.api_deps))
    exact good_add_build_action _ _ hgl
  · intro b hb
    show writerHasAction
      ((if st.cctx.apiLevelsAdded then st.ninja
        else add_api_levels_file outRoot st.ninja).writer.add_build_action
          (phonyActionFor (String.intercalate "-" [surface, versionStr, libName]) st.api_deps)) b
    exact has_mono_add_build_action _ _ _ (hml b hb)
  · show writerHasAction
      ((if st.cctx.apiLevelsAdded then st.ninja
        else add_api_levels_file outRoot st.ninja).writer.add_build_action
          (phonyActionFor (String.intercalate "-" [surface, versionStr, libName]) st.api_deps))
      (phonyActionFor (String.intercalate "-" [surface, versionStr, libName]) st.api_deps)
    exact has_add_build_action _ _ hgl

/-- One versioned `assemble_cc_api_library` call: keeps the cache invariant,
preserves previously emitted actions, emits a stubgen action for its first
contribution at every architecture, and emits the per-library phony whose
inputs are exactly the staged header and ABI files. -/
theorem assemble_cc_api_library_spec (outRoot : String) (cctx : CcAssemblyCtx)
    (nj : Ninja) (surface versionStr libName : String) (c : StubLibraryContribution)
    (rest : List StubLibraryContribution) (hg : GoodWriter nj.writer) :
    GoodWriter (assemble_cc_api_library outRoot cctx nj surface versionStr libName
      (c :: rest)).2.writer
    ∧ (∀ b0, writerHasAction nj.writer b0 →
        writerHasAction (assemble_cc_api_library outRoot cctx nj surface versionStr libName
          (c :: rest)).2.writer b0)
    ∧ (∀ arch ∈ ARCHES,
        writerHasAction (assemble_cc_api_library outRoot cctx nj surface versionStr libName
          (c :: rest)).2.writer (ccStubAction outRoot surface versionStr libName c arch))
    ∧ writerHasAction (assemble_cc_api_library outRoot cctx nj surface versionStr libName
        (c :: rest)).2.writer
        (phonyActionFor (String.intercalate "-" [surface, versionStr, libName])
          (ccApiDeps outRoot surface versionStr libName (c :: rest))) := by
  have hg0 : stGood { cctx := cctx, ninja := nj, api_deps := ([] : List String) } := hg
  have hQ : ∀ (s : CcAssemblyState) (a : StubLibraryContribution), stGood s →
      stGood (assembleContribution outRoot surface versionStr libName s a) :=
    fun s a h => (assembleContribution_spec outRoot surface versionStr libName s a h).1
  have hstG : stGood ((c :: rest).foldl
      (assembleContribution outRoot surface versionStr libName)
      { cctx := cctx, ninja := nj, api_deps := [] }) :=
    foldl_inv _ stGood hQ (c :: rest) _ hg0
  have hmonoFold : ∀ (b : BuildAction) (l : List StubLibraryContribution)
      (s : CcAssemblyState), stGood s → stHas b s →
      stHas b (l.foldl (assembleContribution outRoot surface versionStr libName) s) :=
    fun b l s hgs hbs =>
      (foldl_inv _ (fun s' => stGood s' ∧ stHas b s')
        (fun s' a h => ⟨hQ s' a h.1,
          (assembleContribution_spec outRoot surface versionStr libName s' a h.1).2.1 b h.2⟩)
        l s ⟨hgs, hbs⟩).2
  have hdeps : ((c :: rest).foldl
      (assembleContribution outRoot surface versionStr libName)
      { cctx := cctx, ninja := nj, api_deps := [] }).api_deps
      = ccApiDeps outRoot surface versionStr libName (c :: rest) := by
    rw [assembleContribution_fold_api_deps]
    simp
  have hstArch : ∀ arch ∈ ARCHES,
      stHas (ccStubAction outRoot surface versionStr libName c arch)
        ((c :: rest).foldl (assembleContribution outRoot surface versionStr libName)
          { cctx := cctx, ninja := nj, api_deps := [] }) := by
    intro arch harch
    simp only [List.foldl_cons]
    refine hmonoFold _ rest _ (hQ _ c hg0) ?_
    exact (assembleContribution_spec outRoot surface versionStr libName _ c hg0).2.2 arch harch
  rcases finishCcLibrary_spec outRoot surface versionStr libName
    ((c :: rest).foldl (assembleContribution outRoot surface versionStr libName)
      { cctx := cctx, ninja := nj, api_deps := [] }) hstG with ⟨hf1, hf2, hf3⟩
  refine ⟨hf1, ?_, ?_, ?_⟩
  · intro b0 hb0
    exact hf2 b0 (hmonoFold b0 (c :: rest) _ hg0 hb0)
  · intro arch harch
    exact hf2 _ (hstArch arch harch)
  · rw [← hdeps]
    exact hf3

/-- C8 (amended): for a `cc_libraries` stub library on a platform-versioned
surface, assembly fans out once per numeric API level 1 through 33 (the
in-development level 34 is represented only by the symbolic `current` marker
appended to the list), and within each fanned-out version a stub-generation
build action is emitted for every supported target architecture, plus one
phony target named by joining surface, version and library name with `-`
whose dependencies are exactly the staged header and ABI description files
(`ccApiDeps`) — not the stub-generation outputs. -/
theorem cc_api_fanout_amended (outRoot : String) (cctx : CcAssemblyCtx) (nj : Ninja)
    (sl : StubLibrary) (c : StubLibraryContribution) (rest : List StubLibraryContribution)
    (hsurf : sl.api_surface = "publicapi" ∨ sl.api_surface = "module-libapi")
    (hcontrib : sl.contributions = c :: rest)
    (hgood : GoodWriter nj.writer) :
    (fanoutVersions.Nodup ∧ fanoutVersions.length = 34
      ∧ (∀ k : Nat, 1 ≤ k → k ≤ 33 → toString k ∈ fanoutVersions)
      ∧ "current" ∈ fanoutVersions)
    ∧ (∀ v ∈ fanoutVersions, ∀ arch ∈ ARCHES,
        writerHasAction (assembleCcStubLibrary outRoot cctx nj sl).2.writer
          (ccStubAction outRoot sl.api_surface v sl.name c arch))
    ∧ (∀ v ∈ fanoutVersions,
        writerHasAction (assembleCcStubLibrary outRoot cctx nj sl).2.writer
          (phonyActionFor (String.intercalate "-" [sl.api_surface, v, sl.name])
            (ccApiDeps outRoot sl.api_surface v sl.name sl.contributions))) := by
  have hchar : fanoutVersions.Nodup ∧ fanoutVersions.length = 34
      ∧ (∀ k : Nat, 1 ≤ k → k ≤ 33 → toString k ∈ fanoutVersions)
      ∧ "current" ∈ fanoutVersions := by
    refine ⟨by decide, by decide, ?_, by decide⟩
    intro k h1 h2
    unfold fanoutVersions
    refine List.mem_append.mpr (Or.inl ?_)
    exact List.mem_map.mpr ⟨k, by
      rw [List.mem_range'_1]
      exact ⟨h1, by omega⟩, rfl⟩
  have hP : ∀ v ∈ fanoutVersions,
      (∀ arch ∈ ARCHES,
        writerHasAction (assembleCcStubLibrary outRoot cctx nj sl).2.writer
          (ccStubAction outRoot sl.api_surface v sl.name c arch))
      ∧ writerHasAction (assembleCcStubLibrary outRoot cctx nj sl).2.writer
          (phonyActionFor (String.intercalate "-" [sl.api_surface, v, sl.name])
            (ccApiDeps outRoot sl.api_surface v sl.name sl.contributions)) := by
    unfold assembleCcStubLibrary
    rw [if_pos hsurf, hcontrib]
    exact foldl_each
      (fun acc v => assemble_cc_api_library outRoot acc.1 acc.2 sl.api_surface v sl.name
        (c :: rest))
      (fun acc => GoodWriter acc.2.writer)
      (fun v acc =>
        (∀ arch ∈ ARCHES, writerHasAction acc.2.writer
          (ccStubAction outRoot sl.api_surface v sl.name c arch))
        ∧ writerHasAction acc.2.writer
            (phonyActionFor (String.intercalate "-" [sl.api_surface, v, sl.name])
              (ccApiDeps outRoot sl.api_surface v sl.name (c :: rest))))
      (fun acc v h =>
        (assemble_cc_api_library_spec outRoot acc.1 acc.2 sl.api_surface v sl.name c rest h).1)
      (fun acc v b hq hb =>
        ⟨fun arch harch =>
          (assemble_cc_api_library_spec outRoot acc.1 acc.2 sl.api_surface v sl.name c rest
            hq).2.1 _ (hb.1 arch harch),
         (assemble_cc_api_library_spec outRoot acc.1 acc.2 sl.api_surface v sl.name c rest
            hq).2.1 _ hb.2⟩)
      (fun acc v hq =>
        ⟨(assemble_cc_api_library_spec outRoot acc.1 acc.2 sl.api_surface v sl.name c rest
            hq).2.2.1,
         (assemble_cc_api_library_spec outRoot acc.1 acc.2 sl.api_surface v sl.name c rest
            hq).2.2.2⟩)
      fanoutVersions (cctx, nj) hgood
  exact ⟨hchar, fun v hv => (hP v hv).1, fun v hv => (hP v hv).2⟩

/-- A concrete contribution for the C8 witness and counterexample. -/
def wCcContrib : StubLibraryContribution :=
  ⟨"tree1", "system", ⟨"libfoo", "prebuilts/libfoo.map.txt", [⟨"hdrs", "inc", ["inc/a.h"]⟩]⟩⟩

/-- A concrete `cc_libraries` stub library on the `publicapi` surface. -/
def wCcLib : StubLibrary :=
  { language := "cc_libraries", api_surface := "publicapi", api_surface_version := 1,
    name := "libfoo", contributions := [wCcContrib] }

/-- A fresh ninja writer for the C8 witness and counterexample. -/
def wNinja : Ninja := ⟨Writer.initEmpty, [], "acp"⟩

/-- Witness for C8 at the concrete library: the fan-out emits the version-1
arm stubgen action and the version-1 phony with the staged dependencies. -/
theorem cc_api_fanout_amended_witness :
    "current" ∈ fanoutVersions
    ∧ writerHasAction (assembleCcStubLibrary "out" ⟨none, false⟩ wNinja wCcLib).2.writer
        (ccStubAction "out" "publicapi" "1" "libfoo" wCcContrib "arm")
    ∧ writerHasAction (assembleCcStubLibrary "out" ⟨none, false⟩ wNinja wCcLib).2.writer
        (phonyActionFor (String.intercalate "-" ["publicapi", "1", "libfoo"])
          (ccApiDeps "out" "publicapi" "1" "libfoo" [wCcContrib])) := by
  have h := cc_api_fanout_amended "out" ⟨none, false⟩ wNinja wCcLib wCcContrib []
    (Or.inl rfl) rfl (by intro b hb; simp [wNinja, Writer.initEmpty] at hb)
  exact ⟨h.1.2.2.2,
    h.2.1 "1" (by decide) "arm" (by decide),
    h.2.2 "1" (by decide)⟩

/-- A node produces the given output list. -/
def nodeHasOutput (out : List String) : NinjaNode → Bool
  | NinjaNode.buildAction b => decide (b.output = out)
  | _ => false

/-- A node consumes the given path as an input, implicit or order-only
dependency. -/
def nodeUsesInput (x : String) : NinjaNode → Bool
  | NinjaNode.buildAction b => decide (x ∈ b.inputs ∨ x ∈ b.implicits ∨ x ∈ b.order_only)
  | _ => false

/-- C8 counterexample: in the assembly of version 1 of the concrete library,
the per-library phony `publicapi-1-libfoo` is emitted, yet none of the arm
stub-generation action's outputs is consumed by any emitted build action — in
particular the stubgen actions do not converge into the phony target, which
refutes the claim that every (level, arch) stub-generation action converges
into the phony. -/
theorem stubgen_outputs_not_among_phony_deps :
    ((assemble_cc_api_library "out" ⟨none, false⟩ wNinja "publicapi" "1" "libfoo"
        [wCcContrib]).2.writer.nodes.any
      (nodeHasOutput ["publicapi-1-libfoo"]) = true)
    ∧ (∀ out ∈ genCcStubsOutputs (api_library_work_dir "out" "publicapi" "1" "libfoo") "arm",
        (assemble_cc_api_library "out" ⟨none, false⟩ wNinja "publicapi" "1" "libfoo"
          [wCcContrib]).2.writer.nodes.all
          (fun nd => !(nodeUsesInput out nd)) = true) := by
  constructor
  · decide
  · decide

end Orch
